import Mathlib

/-!
Verification of the gh-rag retrieval/ingestion core.

Shallow embedding of the algorithmic core of the repository:
the TTL cache, reciprocal-rank fusion (`rrf`), hybrid search result
assembly (`src/search.ts`), the token chunker (`chunkDocs`), batched
embedding (`embedInBatches`), metadata size fitting (`fitMetadata`)
(`src/ingest.ts`), and the skill-search aggregation
(`findProjectsBySkill`).  Numbers that JavaScript represents as IEEE
doubles are modelled as exact rationals; JavaScript `Map` objects are
modelled as insertion-ordered association lists; the external tokenizer
and the embedding/vector-store providers are abstract function
parameters.
-/

namespace GhRag

open scoped List

/-! ### TTL cache (src/search.ts lines 7-19)

A JavaScript `Map<string, CacheEntry<T>>` is modelled as an
insertion-ordered association list with unique keys.  `Date.now()` is
passed explicitly as a natural-number epoch-milliseconds argument. -/

structure CacheEntry (α : Type) where
  value : α
  expires : ℕ
deriving Repr, DecidableEq

/-- `map.get(key)`: the entry stored at `key`, if any. -/
def mapGet {α : Type} (m : List (String × CacheEntry α)) (key : String) :
    Option (CacheEntry α) :=
  (m.find? (fun p => p.1 = key)).map (·.2)

/-- `map.delete(key)`: remove the entry stored at `key`. -/
def mapDelete {α : Type} (m : List (String × CacheEntry α)) (key : String) :
    List (String × CacheEntry α) :=
  m.filter (fun p => ¬ p.1 = key)

/-- `map.set(key, v)`: overwrite in place when present, else append. -/
def mapSet {α : Type} (m : List (String × CacheEntry α)) (key : String)
    (v : CacheEntry α) : List (String × CacheEntry α) :=
  if (m.find? (fun p => p.1 = key)).isSome then
    m.map (fun p => if p.1 = key then (key, v) else p)
  else
    m ++ [(key, v)]

/-- `getCache` from src/search.ts: a hit whose `expires` is strictly in
the past is deleted and reported absent; otherwise the value is
returned.  The (possibly mutated) map is returned alongside. -/
def getCache {α : Type} (m : List (String × CacheEntry α)) (key : String)
    (now : ℕ) : Option α × List (String × CacheEntry α) :=
  match mapGet m key with
  | none => (none, m)
  | some hit =>
    if hit.expires < now then (none, mapDelete m key)
    else (some hit.value, m)

/-- `setCache` from src/search.ts: store `value` with
`expires = now + ttlMs`. -/
def setCache {α : Type} (m : List (String × CacheEntry α)) (key : String)
    (value : α) (ttlMs : ℕ) (now : ℕ) : List (String × CacheEntry α) :=
  mapSet m key ⟨value, now + ttlMs⟩

theorem mapGet_mapSet {α : Type} (m : List (String × CacheEntry α))
    (key : String) (v : CacheEntry α) : mapGet (mapSet m key v) key = some v := by
  unfold mapGet mapSet
  induction m with
  | nil => simp [List.find?]
  | cons a as ih =>
    by_cases ha : a.1 = key
    · have hfind : (List.find? (fun p => decide (p.1 = key)) (a :: as)).isSome := by
        simp [List.find?, ha]
      rw [if_pos hfind]
      simp [List.find?, ha]
    · have hcons : List.find? (fun p => decide (p.1 = key)) (a :: as)
          = List.find? (fun p => decide (p.1 = key)) as := by
        simp [List.find?, ha]
      by_cases hs : (List.find? (fun p => decide (p.1 = key)) as).isSome
      · rw [if_pos (by rw [hcons]; exact hs)]
        simp only [List.map_cons]
        rw [if_neg ha]
        rw [if_pos hs] at ih
        simpa [List.find?, ha] using ih
      · rw [if_neg (by rw [hcons]; exact hs)]
        rw [if_neg hs] at ih
        simpa [List.find?, ha] using ih

theorem mapGet_mapDelete {α : Type} (m : List (String × CacheEntry α))
    (key : String) : mapGet (mapDelete m key) key = none := by
  unfold mapGet mapDelete
  have : List.find? (fun p => decide (p.1 = key))
      (m.filter (fun p => ¬ p.1 = key)) = none := by
    rw [List.find?_eq_none]
    intro p hp
    have := (List.mem_filter.mp hp).2
    simpa using this
  rw [this]
  rfl

/-- C7: a cache entry set at time `s` with TTL `t` is returned by any
lookup at `now ≤ s + t`; a lookup at `now > s + t` reports the entry
absent and evicts it from the map (lazy eviction on read). -/
theorem cache_ttl {α : Type} (m : List (String × CacheEntry α)) (key : String)
    (value : α) (t s now : ℕ) :
    (now ≤ s + t → (getCache (setCache m key value t s) key now).1 = some value) ∧
    (s + t < now →
      (getCache (setCache m key value t s) key now).1 = none ∧
      mapGet (getCache (setCache m key value t s) key now).2 key = none) := by
  have hget : mapGet (setCache m key value t s) key = some ⟨value, s + t⟩ :=
    mapGet_mapSet m key ⟨value, s + t⟩
  constructor
  · intro hle
    unfold getCache
    rw [hget]
    simp only [Option.some.injEq]
    rw [if_neg (by omega)]
  · intro hlt
    unfold getCache
    rw [hget]
    simp only
    rw [if_pos (by omega)]
    exact ⟨rfl, mapGet_mapDelete _ key⟩

/-- Witness for C7 at concrete inputs. -/
theorem cache_ttl_witness :
    ((100 : ℕ) ≤ 50 + 60 ∧
      (getCache (setCache ([] : List (String × CacheEntry ℕ)) "k" 7 60 50)
        "k" 100).1 = some 7) ∧
    (50 + 60 < 200 ∧
      (getCache (setCache ([] : List (String × CacheEntry ℕ)) "k" 7 60 50)
        "k" 200).1 = none) :=
  ⟨⟨by omega, (cache_ttl [] "k" 7 60 50 100).1 (by omega)⟩,
   ⟨by omega, ((cache_ttl [] "k" 7 60 50 200).2 (by omega)).1⟩⟩

/-! ### Reciprocal rank fusion (src/search.ts `rrf`)

`rrf(a, b, k = 60)` builds 1-based rank maps with `Object.fromEntries`,
enumerates the union of ids with a JavaScript `Set` (insertion order,
first occurrence kept), scores each id with
`1/(k + (ra[id] || 999)) + 1/(k + (rb[id] || 999))` and sorts descending
with the (stable) JavaScript array sort.  Scores are modelled as exact
rationals. -/

structure RankedItem where
  id : String
  score : ℚ
deriving Repr, DecidableEq

/-- `Object.fromEntries`: later entries overwrite earlier ones, so a
lookup returns the value of the last entry carrying the key. -/
def fromEntries {β : Type} (l : List (String × β)) (key : String) : Option β :=
  (l.reverse.find? (fun p => p.1 = key)).map (·.2)

/-- `rank(arr)` inside `rrf`: id ↦ its 1-based position
(`arr.map((x, i) => [x.id, i + 1])` piped through `Object.fromEntries`,
so for duplicated ids the last position wins). -/
def rank (arr : List RankedItem) : String → Option ℕ :=
  fromEntries (arr.enum.map (fun p => (p.2.id, p.1 + 1)))

/-- `[...new Set(l)]`: insertion-ordered deduplication keeping the first
occurrence of each element. -/
def dedupFirst : List String → List String
  | [] => []
  | x :: xs => x :: dedupFirst (xs.filter (fun y => ¬ y = x))
termination_by l => l.length
decreasing_by simpa using Nat.lt_succ_of_le (List.length_filter_le _ _)

/-- The fused score of an id.  The stored ranks are all ≥ 1, hence never
falsy, so `ra[id] || 999` coincides with defaulting an absent key
to `999`. -/
def rrfScore (a b : List RankedItem) (k : ℚ) (id : String) : ℚ :=
  1 / (k + (((rank a id).getD 999 : ℕ) : ℚ)) +
    1 / (k + (((rank b id).getD 999 : ℕ) : ℚ))

/-- The comparator `(x, y) => y.score - x.score` orders by descending
score; JavaScript's `Array.prototype.sort` is stable. -/
def scoreLE (x y : RankedItem) : Bool := decide (y.score ≤ x.score)

/-- The union enumeration of `rrf`, mapped to scored items, before the
final sort. -/
def rrfCandidates (a b : List RankedItem) (k : ℚ) : List RankedItem :=
  (dedupFirst (a.map (·.id) ++ b.map (·.id))).map
    (fun id => ⟨id, rrfScore a b k id⟩)

/-- `rrf` from src/search.ts. -/
def rrf (a b : List RankedItem) (k : ℚ) : List RankedItem :=
  (rrfCandidates a b k).mergeSort scoreLE

theorem scoreLE_trans (x y z : RankedItem) :
    scoreLE x y → scoreLE y z → scoreLE x z := by
  simp only [scoreLE, decide_eq_true_eq]
  intro h₁ h₂
  exact le_trans h₂ h₁

theorem scoreLE_total (x y : RankedItem) : scoreLE x y || scoreLE y x := by
  simp only [scoreLE, Bool.or_eq_true, decide_eq_true_eq]
  exact le_total y.score x.score

/-- C5: an ID ranked first in both input lists receives a strictly
higher fused score than an ID ranked first in one list and absent from
the other, for every positive `k`. -/
theorem rrf_monotonicity (a b a' b' : List RankedItem) (k : ℚ) (x y : String)
    (hk : 0 < k)
    (hxa : rank a x = some 1) (hxb : rank b x = some 1)
    (hya : rank a' y = some 1) (hyb : rank b' y = none) :
    rrfScore a' b' k y < rrfScore a b k x := by
  unfold rrfScore
  rw [hxa, hxb, hya, hyb]
  simp only [Option.getD_some, Option.getD_none, Nat.cast_one, Nat.cast_ofNat]
  have h₁ : (0 : ℚ) < k + 1 := by linarith
  have h₂ : (1 : ℚ) / (k + 999) < 1 / (k + 1) :=
    one_div_lt_one_div_of_lt h₁ (by linarith)
  linarith

/-- Witness for C5 at concrete inputs. -/
theorem rrf_monotonicity_witness :
    ((0 : ℚ) < 60 ∧
      rank [⟨"x", 1⟩] "x" = some 1 ∧ rank [⟨"x", 9/10⟩] "x" = some 1 ∧
      rank [⟨"y", 1⟩] "y" = some 1 ∧ rank ([] : List RankedItem) "y" = none) ∧
    rrfScore [⟨"y", 1⟩] [] 60 "y" < rrfScore [⟨"x", 1⟩] [⟨"x", 9/10⟩] 60 "x" :=
  ⟨⟨by norm_num, by decide, by decide, by decide, by decide⟩,
    rrf_monotonicity [⟨"x", 1⟩] [⟨"x", 9/10⟩] [⟨"y", 1⟩] [] 60 "x" "y"
      (by norm_num) (by decide) (by decide) (by decide) (by decide)⟩

theorem fromEntries_cons {β : Type} (e : String × β) (l : List (String × β))
    (key : String) :
    fromEntries (e :: l) key
      = (fromEntries l key).or (if e.1 = key then some e.2 else none) := by
  unfold fromEntries
  rw [List.reverse_cons, List.find?_append]
  cases hf : l.reverse.find? (fun p => decide (p.1 = key)) with
  | none => by_cases he : e.1 = key <;> simp [List.find?, he, Option.or]
  | some q => by_cases he : e.1 = key <;> simp [List.find?, he, Option.or]

theorem rank_enumFrom (id : String) (arr : List RankedItem) :
    ∀ (n : ℕ), (arr.map (·.id)).Nodup →
    fromEntries ((arr.enumFrom n).map (fun p => (p.2.id, p.1 + 1))) id
      = if id ∈ arr.map (·.id)
        then some ((arr.map (·.id)).indexOf id + n + 1) else none := by
  induction arr with
  | nil => intro n _; simp [fromEntries]
  | cons r rs ih =>
    intro n h
    rw [List.enumFrom_cons, List.map_cons, fromEntries_cons]
    simp only [List.map_cons, List.nodup_cons] at h
    by_cases hid : r.id = id
    · have hnot : id ∉ rs.map (·.id) := by
        rw [← hid]; exact h.1
      rw [ih (n + 1) h.2, if_neg hnot, if_pos hid]
      rw [if_pos (by simp [← hid])]
      rw [Option.none_or]
      have hidx : (r.id :: List.map (·.id) rs).indexOf id = 0 :=
        List.indexOf_cons_eq _ hid
      simp only [List.map_cons, hidx]
      norm_num
    · rw [ih (n + 1) h.2, if_neg hid]
      by_cases hmem : id ∈ rs.map (·.id)
      · rw [if_pos hmem, if_pos (by simp [hmem])]
        have hidx : (r.id :: List.map (·.id) rs).indexOf id
            = ((rs.map (·.id)).indexOf id).succ :=
          List.indexOf_cons_ne (rs.map (·.id)) hid
        simp only [List.map_cons, hidx]
        simp only [Option.or_some, Option.some.injEq]
        omega
      · rw [if_neg hmem, if_neg (show ¬ id ∈ List.map (·.id) (r :: rs) by
          simp only [List.map_cons, List.mem_cons]
          rintro (hc | hc)
          · exact hid hc.symm
          · exact hmem hc)]
        rfl

/-- The claim's rank function: the 1-based position of `id` in `arr`,
with `999` for an absent id. -/
def specRank (arr : List RankedItem) (id : String) : ℕ :=
  if id ∈ arr.map (·.id) then (arr.map (·.id)).indexOf id + 1 else 999

theorem rank_eq (arr : List RankedItem) (h : (arr.map (·.id)).Nodup)
    (id : String) :
    rank arr id = if id ∈ arr.map (·.id)
      then some ((arr.map (·.id)).indexOf id + 1) else none := by
  unfold rank
  have := rank_enumFrom id arr 0 h
  simpa [List.enum] using this

theorem getD_rank (arr : List RankedItem) (h : (arr.map (·.id)).Nodup)
    (id : String) : (rank arr id).getD 999 = specRank arr id := by
  rw [rank_eq arr h id]
  unfold specRank
  split <;> simp

theorem mem_dedupFirst_aux (x : String) :
    ∀ (n : ℕ) (l : List String), l.length ≤ n → (x ∈ dedupFirst l ↔ x ∈ l) := by
  intro n
  induction n with
  | zero =>
    intro l hl
    rw [List.length_eq_zero.mp (Nat.le_zero.mp hl)]
    simp [dedupFirst]
  | succ n ih =>
    intro l hl
    cases l with
    | nil => simp [dedupFirst]
    | cons a as =>
      rw [dedupFirst]
      have hlen : (as.filter (fun y => ¬ y = a)).length ≤ n := by
        have := List.length_filter_le (fun y => ¬ y = a) as
        simp only [List.length_cons, Nat.succ_le_succ_iff] at hl
        omega
      rw [List.mem_cons, ih _ hlen, List.mem_cons]
      constructor
      · rintro (rfl | hx)
        · exact Or.inl rfl
        · exact Or.inr (List.mem_filter.mp hx).1
      · rintro (rfl | hx)
        · exact Or.inl rfl
        · by_cases hxa : x = a
          · exact Or.inl hxa
          · exact Or.inr (List.mem_filter.mpr ⟨hx, by simpa using hxa⟩)

theorem mem_dedupFirst (x : String) (l : List String) :
    x ∈ dedupFirst l ↔ x ∈ l :=
  mem_dedupFirst_aux x l.length l le_rfl

theorem nodup_dedupFirst_aux :
    ∀ (n : ℕ) (l : List String), l.length ≤ n → (dedupFirst l).Nodup := by
  intro n
  induction n with
  | zero =>
    intro l hl
    rw [List.length_eq_zero.mp (Nat.le_zero.mp hl)]
    rw [dedupFirst]
    exact List.nodup_nil
  | succ n ih =>
    intro l hl
    cases l with
    | nil => rw [dedupFirst]; exact List.nodup_nil
    | cons a as =>
      rw [dedupFirst]
      have hlen : (as.filter (fun y => ¬ y = a)).length ≤ n := by
        have := List.length_filter_le (fun y => ¬ y = a) as
        simp only [List.length_cons, Nat.succ_le_succ_iff] at hl
        omega
      rw [List.nodup_cons]
      refine ⟨?_, ih _ hlen⟩
      intro hmem
      rw [mem_dedupFirst] at hmem
      have := (List.mem_filter.mp hmem).2
      simp at this

theorem nodup_dedupFirst (l : List String) : (dedupFirst l).Nodup :=
  nodup_dedupFirst_aux l.length l le_rfl

/-! ### Hybrid search result assembly (src/search.ts `hybridSearch`)

The pure data path of `hybridSearch` after the external calls have
returned: `bm` is the (possibly empty) BM25 ranking, `matches` the
vector-store response.  `m.score || 0` is modelled by an optional score
defaulted to `0`, a possibly-undefined metadata payload by an `Option`
over an arbitrary payload type. -/

structure PineMatch (μ : Type) where
  id : String
  score : Option ℚ
  metadata : Option μ

/-- The `knn` list built from the vector matches. -/
def knnOf {μ : Type} (ms : List (PineMatch μ)) : List RankedItem :=
  ms.map (fun m => ⟨m.id, m.score.getD 0⟩)

/-- The `metaById` map (`Object.fromEntries` over the matches); an
absent key and an undefined stored metadata both yield `none`. -/
def metaById {μ : Type} (ms : List (PineMatch μ)) (id : String) :
    Option μ :=
  (fromEntries (ms.map (fun m => (m.id, m.metadata))) id).join

/-- `const fused = rrf(bm, knn).slice(0, 20)`. -/
def hybridFused {μ : Type} (bm : List RankedItem)
    (ms : List (PineMatch μ)) : List RankedItem :=
  (rrf bm (knnOf ms) 60).take 20

/-- `fused.map(f => metaById[f.id]).filter(Boolean)`. -/
def hybridResults {μ : Type} (bm : List RankedItem)
    (ms : List (PineMatch μ)) : List μ :=
  (hybridFused bm ms).filterMap (fun f => metaById ms f.id)

/-- C1: over ranked lists with distinct ids, `rrf` scores exactly the
union of the ids of `A` and `B` with `1/(k+rankA) + 1/(k+rankB)` (rank =
1-based position, `999` when absent), sorts descending by fused score
with ties broken by the insertion order of the union enumeration, and
hybrid search truncates the fused list to at most its top 20 entries. -/
theorem rrf_spec (a b : List RankedItem) (k : ℚ)
    (ha : (a.map (·.id)).Nodup) (hb : (b.map (·.id)).Nodup) :
    (∀ id, (∃ r ∈ rrf a b k, r.id = id) ↔
      id ∈ a.map (·.id) ∨ id ∈ b.map (·.id)) ∧
    (∀ r ∈ rrf a b k,
      r.score = 1 / (k + (specRank a r.id : ℚ))
        + 1 / (k + (specRank b r.id : ℚ))) ∧
    (rrf a b k).Pairwise (fun x y => y.score ≤ x.score) ∧
    (∀ x y : RankedItem, x.score = y.score →
      [x, y] <+ rrfCandidates a b k → [x, y] <+ rrf a b k) ∧
    (∀ (μ : Type) (bm : List RankedItem) (ms : List (PineMatch μ)),
      hybridFused bm ms <+ rrf bm (knnOf ms) 60 ∧
      (hybridFused bm ms).length ≤ 20) := by
  refine ⟨?_, ?_, ?_, ?_, ?_⟩
  · intro id
    constructor
    · rintro ⟨r, hr, rfl⟩
      rw [rrf, List.mem_mergeSort, rrfCandidates] at hr
      obtain ⟨u, hu, rfl⟩ := List.mem_map.mp hr
      rw [mem_dedupFirst, List.mem_append] at hu
      exact hu
    · intro hid
      refine ⟨⟨id, rrfScore a b k id⟩, ?_, rfl⟩
      rw [rrf, List.mem_mergeSort, rrfCandidates]
      exact List.mem_map.mpr ⟨id, by rw [mem_dedupFirst, List.mem_append]; exact hid, rfl⟩
  · intro r hr
    rw [rrf, List.mem_mergeSort, rrfCandidates] at hr
    obtain ⟨u, _, rfl⟩ := List.mem_map.mp hr
    show rrfScore a b k u = _
    unfold rrfScore
    rw [getD_rank a ha u, getD_rank b hb u]
  · have := List.sorted_mergeSort scoreLE_trans scoreLE_total
      (rrfCandidates a b k)
    rw [← rrf] at this
    exact this.imp (fun h => by simpa [scoreLE] using h)
  · intro x y hscore hsub
    exact List.pair_sublist_mergeSort scoreLE_trans scoreLE_total
      (by simp [scoreLE, hscore]) hsub
  · intro μ bm ms
    exact ⟨List.take_sublist _ _, by
      simp only [hybridFused]
      exact List.length_take_le 20 (rrf bm (knnOf ms) 60)⟩

/-- Witness for C1 at the spec's example inputs. -/
theorem rrf_spec_witness :
    ((([⟨"a", 9/10⟩, ⟨"b", 1/2⟩] : List RankedItem).map (·.id)).Nodup ∧
      (([⟨"b", 8/10⟩, ⟨"c", 7/10⟩] : List RankedItem).map (·.id)).Nodup) ∧
    (rrf [⟨"a", 9/10⟩, ⟨"b", 1/2⟩] [⟨"b", 8/10⟩, ⟨"c", 7/10⟩] 60).Pairwise
      (fun x y => y.score ≤ x.score) :=
  ⟨⟨by decide, by decide⟩,
    (rrf_spec [⟨"a", 9/10⟩, ⟨"b", 1/2⟩] [⟨"b", 8/10⟩, ⟨"c", 7/10⟩] 60
      (by decide) (by decide)).2.2.1⟩

/-! ### Token chunker (src/ingest.ts `chunkDocs`)

`chunkDocs` encodes each document with the external `gpt-tokenizer`
(modelled as an abstract encode/decode pair) and walks the token-id
sequence with the loop `for (let i = 0; i < ids.length; i += CHUNK_TOKENS)`.
The window width is kept as a parameter `c` (the source fixes it to the
constant `CHUNK_TOKENS = 4000`); the loop guard carries the extra side
condition `0 < c`, under which the source loop terminates. -/

def CHUNK_TOKENS : ℕ := 4000

structure RecordChunk where
  id : String
  repo : String
  path : String
  start : ℕ
  endTok : ℕ
  tokens : ℕ
  text : String
deriving Repr, DecidableEq

structure Doc where
  path : String
  text : String

/-- The per-document loop body of `chunkDocs`:
`ids.slice(i, i + c)` decoded, with the id string
`repo:path:i-(i + slice.length)`. -/
def chunkGo (c : ℕ) (dec : List ℕ → String) (repo p : String)
    (ids : List ℕ) (i : ℕ) : List RecordChunk :=
  if _h : i < ids.length ∧ 0 < c then
    ⟨repo ++ ":" ++ p ++ ":" ++ toString i ++ "-"
        ++ toString (i + ((ids.drop i).take c).length),
      repo, p, i, i + ((ids.drop i).take c).length,
      ((ids.drop i).take c).length, dec ((ids.drop i).take c)⟩
      :: chunkGo c dec repo p ids (i + c)
  else []
termination_by ids.length - i
decreasing_by omega

/-- `chunkDocs` from src/ingest.ts, over a materialized document
list. -/
def chunkDocs (c : ℕ) (enc : String → List ℕ) (dec : List ℕ → String)
    (repo : String) (docs : List Doc) : List RecordChunk :=
  docs.flatMap (fun d => chunkGo c dec repo d.path (enc d.text) 0)

/-- The claim's description of the emitted chunks: the windows
`[i, min(i + c, N))` for `i = 0, c, 2c, …` until `i ≥ N`, each decoded
back to text. -/
def specWindows (c : ℕ) (dec : List ℕ → String) (repo p : String)
    (ids : List ℕ) : List RecordChunk :=
  (List.range ((ids.length + c - 1) / c)).map (fun j =>
    ⟨repo ++ ":" ++ p ++ ":" ++ toString (j * c) ++ "-"
        ++ toString (min (j * c + c) ids.length),
      repo, p, j * c, min (j * c + c) ids.length,
      min (j * c + c) ids.length - j * c,
      dec ((ids.drop (j * c)).take (min (j * c + c) ids.length - j * c))⟩)

theorem numWindows_le_iff (c N j : ℕ) (hc : 0 < c) :
    (N + c - 1) / c ≤ j ↔ N ≤ j * c := by
  rw [Nat.div_le_iff_le_mul_add_pred hc, Nat.mul_comm c j]
  generalize j * c = m
  omega

theorem chunkGo_eq_specWindows_aux (c : ℕ) (dec : List ℕ → String)
    (repo p : String) (ids : List ℕ) (hc : 0 < c) :
    ∀ (n j : ℕ), ids.length - j * c ≤ n →
    chunkGo c dec repo p ids (j * c)
      = (List.range' j ((ids.length + c - 1) / c - j)).map (fun j =>
          ⟨repo ++ ":" ++ p ++ ":" ++ toString (j * c) ++ "-"
              ++ toString (min (j * c + c) ids.length),
            repo, p, j * c, min (j * c + c) ids.length,
            min (j * c + c) ids.length - j * c,
            dec ((ids.drop (j * c)).take (min (j * c + c) ids.length - j * c))⟩) := by
  intro n
  induction n with
  | zero =>
    intro j hj
    have hN : ids.length ≤ j * c := by omega
    rw [chunkGo]
    rw [dif_neg (by omega)]
    have : (ids.length + c - 1) / c - j = 0 := by
      have := (numWindows_le_iff c ids.length j hc).mpr hN
      omega
    rw [this]
    rfl
  | succ n ih =>
    intro j hj
    by_cases hlt : j * c < ids.length
    · have hwin : j < (ids.length + c - 1) / c := by
        by_contra hcon
        have := (numWindows_le_iff c ids.length j hc).mp (by omega)
        omega
      have hrange : (ids.length + c - 1) / c - j
          = ((ids.length + c - 1) / c - (j + 1)) + 1 := by omega
      rw [chunkGo, dif_pos ⟨hlt, hc⟩, hrange, List.range'_succ, List.map_cons]
      have hnext : j * c + c = (j + 1) * c := by ring
      have hgen : ∀ s : ℕ,
          ((ids.drop s).take c).length = min (s + c) ids.length - s ∧
          (ids.drop s).take c
            = (ids.drop s).take (min (s + c) ids.length - s) ∧
          (s < ids.length →
            s + (min (s + c) ids.length - s) = min (s + c) ids.length) := by
        intro s
        refine ⟨?_, ?_, ?_⟩
        · rw [List.length_take, List.length_drop]
          omega
        · rw [List.take_eq_take, List.length_drop]
          omega
        · intro hs
          omega
      obtain ⟨h1, h2, h3⟩ := hgen (j * c)
      congr 1
      · rw [h1, h2, h3 hlt]
      · rw [hnext, ih (j + 1) (by omega)]
    · have hN : ids.length ≤ j * c := by omega
      rw [chunkGo, dif_neg (by omega)]
      have : (ids.length + c - 1) / c - j = 0 := by
        have := (numWindows_le_iff c ids.length j hc).mpr hN
        omega
      rw [this]
      rfl

/-- C3: for every file text, the chunker emits exactly the decoded
windows `[i, min(i + maxChunkTokens, N))` for
`i = 0, maxChunkTokens, 2·maxChunkTokens, …` until `i ≥ N`; in
particular a 10000-token file with `maxChunkTokens = 4000` yields
exactly the 3 chunks `[0,4000)`, `[4000,8000)`, `[8000,10000)`. -/
theorem chunkDocs_spec (c : ℕ) (enc : String → List ℕ)
    (dec : List ℕ → String) (repo : String) (docs : List Doc) (hc : 0 < c) :
    chunkDocs c enc dec repo docs
      = docs.flatMap (fun d => specWindows c dec repo d.path (enc d.text)) ∧
    (∀ (p t : String), (enc t).length = 10000 →
      (chunkDocs 4000 enc dec repo [⟨p, t⟩]).map (fun r => (r.start, r.endTok))
        = [(0, 4000), (4000, 8000), (8000, 10000)]) := by
  have hmain : ∀ (c : ℕ), 0 < c → ∀ (p : String) (ids : List ℕ),
      chunkGo c dec repo p ids 0 = specWindows c dec repo p ids := by
    intro c hc p ids
    have := chunkGo_eq_specWindows_aux c dec repo p ids hc ids.length 0
      (by omega)
    simpa [specWindows, List.range_eq_range'] using this
  constructor
  · unfold chunkDocs
    exact List.flatMap_congr (fun d _ => hmain c hc d.path (enc d.text))
  · intro p t ht
    unfold chunkDocs
    simp only [List.flatMap_cons, List.flatMap_nil, List.append_nil]
    rw [hmain 4000 (by norm_num) p (enc t)]
    unfold specWindows
    rw [ht]
    norm_num [List.range_succ]

/-- Witness for C3: the window width is positive and a 10000-token
encoding is available. -/
theorem chunkDocs_spec_witness :
    (0 < 4000 ∧ ((fun _ : String => List.range 10000) "f").length = 10000) ∧
    (chunkDocs 4000 (fun _ : String => List.range 10000) (fun _ => "") "r"
        [⟨"f", "t"⟩]).map (fun r => (r.start, r.endTok))
      = [(0, 4000), (4000, 8000), (8000, 10000)] :=
  ⟨⟨by norm_num, by simp⟩,
    (chunkDocs_spec 4000 (fun _ : String => List.range 10000) (fun _ => "")
      "r" [⟨"f", "t"⟩] (by norm_num)).2 "f" "t" (by simp)⟩

theorem chunkGo_nil (c : ℕ) (dec : List ℕ → String) (repo p : String)
    (ids : List ℕ) (i : ℕ) (h : ¬(i < ids.length ∧ 0 < c)) :
    chunkGo c dec repo p ids i = [] := by
  rw [chunkGo, dif_neg h]

theorem chunkGo_head_start (c : ℕ) (dec : List ℕ → String) (repo p : String)
    (ids : List ℕ) (i : ℕ) :
    ∀ r ∈ (chunkGo c dec repo p ids i).head?, r.start = i := by
  intro r hr
  rw [chunkGo] at hr
  split at hr
  · simp only [List.head?_cons, Option.mem_def, Option.some.injEq] at hr
    rw [← hr]
  · simp at hr

theorem chunkGo_invariants_aux (c : ℕ) (dec : List ℕ → String)
    (repo p : String) (ids : List ℕ) (hc : 0 < c) :
    ∀ (n i : ℕ), ids.length - i ≤ n →
    ((∀ r ∈ chunkGo c dec repo p ids i,
        r.endTok - r.start = r.tokens ∧ r.tokens ≤ c ∧ i ≤ r.start) ∧
      ((chunkGo c dec repo p ids i).map (·.tokens)).sum = ids.length - i ∧
      (chunkGo c dec repo p ids i).Chain' (fun r₁ r₂ => r₁.endTok = r₂.start) ∧
      (chunkGo c dec repo p ids i).Chain' (fun r₁ r₂ => r₁.start ≤ r₂.start)) := by
  intro n
  induction n with
  | zero =>
    intro i hi
    rw [chunkGo_nil c dec repo p ids i (by omega)]
    refine ⟨by simp, by simp; omega, by simp, by simp⟩
  | succ n ih =>
    intro i hi
    by_cases hlt : i < ids.length
    · obtain ⟨ihmem, ihsum, ihcov, ihmono⟩ := ih (i + c) (by omega)
      have hstep : chunkGo c dec repo p ids i
          = ⟨repo ++ ":" ++ p ++ ":" ++ toString i ++ "-"
                ++ toString (i + ((ids.drop i).take c).length),
              repo, p, i, i + ((ids.drop i).take c).length,
              ((ids.drop i).take c).length, dec ((ids.drop i).take c)⟩
            :: chunkGo c dec repo p ids (i + c) := by
        rw [chunkGo, dif_pos ⟨hlt, hc⟩]
      have hlen : ((ids.drop i).take c).length = min c (ids.length - i) := by
        rw [List.length_take, List.length_drop]
      refine ⟨?_, ?_, ?_, ?_⟩
      · intro r hr
        rw [hstep, List.mem_cons] at hr
        rcases hr with rfl | hr
        · refine ⟨?_, ?_, le_rfl⟩
          · show (i + ((ids.drop i).take c).length) - i
              = ((ids.drop i).take c).length
            omega
          · show ((ids.drop i).take c).length ≤ c
            rw [hlen]; omega
        · obtain ⟨h₁, h₂, h₃⟩ := ihmem r hr
          exact ⟨h₁, h₂, by omega⟩
      · rw [hstep, List.map_cons, List.sum_cons, ihsum]
        show ((ids.drop i).take c).length + _ = _
        rw [hlen]
        omega
      · rw [hstep, List.chain'_cons']
        refine ⟨?_, ihcov⟩
        intro y hy
        have hys := chunkGo_head_start c dec repo p ids (i + c) y hy
        have hne : chunkGo c dec repo p ids (i + c) ≠ [] := by
          intro hnil
          rw [hnil] at hy
          simp at hy
        have hlt₂ : i + c < ids.length := by
          by_contra hcon
          exact hne (chunkGo_nil c dec repo p ids (i + c) (by omega))
        show i + ((ids.drop i).take c).length = y.start
        rw [hlen, hys]
        omega
      · rw [hstep, List.chain'_cons']
        refine ⟨?_, ihmono⟩
        intro y hy
        have hys := chunkGo_head_start c dec repo p ids (i + c) y hy
        show i ≤ y.start
        omega
    · rw [chunkGo_nil c dec repo p ids i (by omega)]
      refine ⟨by simp, by simp; omega, by simp, by simp⟩

/-- C4: every emitted chunk satisfies `endToken - startToken = tokenCount`
and `tokenCount ≤ maxChunkTokens`; per file the chunks appear in
non-decreasing `startToken` order, adjacent windows share their
boundary (no gap, no overlap), the first window starts at token 0, and
the window token counts sum to the length of the original encoding. -/
theorem chunk_invariants (c : ℕ) (dec : List ℕ → String) (repo p : String)
    (ids : List ℕ) (hc : 0 < c) :
    (∀ r ∈ chunkGo c dec repo p ids 0,
      r.endTok - r.start = r.tokens ∧ r.tokens ≤ c) ∧
    ((chunkGo c dec repo p ids 0).map (·.tokens)).sum = ids.length ∧
    (chunkGo c dec repo p ids 0).Pairwise (fun r₁ r₂ => r₁.start ≤ r₂.start) ∧
    (chunkGo c dec repo p ids 0).Chain' (fun r₁ r₂ => r₁.endTok = r₂.start) ∧
    (∀ r ∈ (chunkGo c dec repo p ids 0).head?, r.start = 0) := by
  obtain ⟨hmem, hsum, hcov, hmono⟩ :=
    chunkGo_invariants_aux c dec repo p ids hc ids.length 0 (by omega)
  refine ⟨fun r hr => ⟨(hmem r hr).1, (hmem r hr).2.1⟩, by simpa using hsum,
    ?_, hcov, chunkGo_head_start c dec repo p ids 0⟩
  have : IsTrans RecordChunk (fun r₁ r₂ => r₁.start ≤ r₂.start) :=
    ⟨fun _ _ _ h₁ h₂ => le_trans h₁ h₂⟩
  exact List.chain'_iff_pairwise.mp hmono

/-- Witness for C4 at a concrete window width and token list. -/
theorem chunk_invariants_witness :
    (0 < 2 ∧
      (∀ r ∈ chunkGo 2 (fun _ => "") "r" "p" [10, 11, 12] 0,
        r.endTok - r.start = r.tokens ∧ r.tokens ≤ 2) ∧
      ((chunkGo 2 (fun _ => "") "r" "p" [10, 11, 12] 0).map (·.tokens)).sum
        = 3) :=
  ⟨by norm_num,
    (chunk_invariants 2 (fun _ => "") "r" "p" [10, 11, 12] (by norm_num)).1,
    by simpa using
      (chunk_invariants 2 (fun _ => "") "r" "p" [10, 11, 12] (by norm_num)).2.1⟩

/-! ### Metadata size fitting (src/ingest.ts `fitMetadata`)

`fitMetadata` bounds `Buffer.byteLength(JSON.stringify(meta))` by
`maxBytes` (40960 at the call site), binary-searching the longest
truncation of `meta.text` that still fits once the ellipsis marker and
the `truncated: true` flag are added.  The serialized size of the
call-site object `{repo, path, start, end, tokens, model, text}` is
computed field by field: 60 structural bytes for the braces, quoted
keys, colons and commas, plus the JSON-escaped UTF-8 byte length of
each string value, the decimal digits of each number, and 17 more bytes
for an appended `"truncated":true` member. -/

structure Meta where
  repo : String
  path : String
  start : ℕ
  endTok : ℕ
  tokens : ℕ
  model : String
  text : String
deriving Repr, DecidableEq

/-- UTF-8 byte length of the JSON escape of one character: quote and
backslash become two-byte escapes, the five short control escapes are
two bytes, the remaining control characters six-byte escapes, and every
other character contributes its UTF-8 bytes. -/
def escCost (ch : Char) : ℕ :=
  if ch = '"' ∨ ch = '\\' then 2
  else if ch = '\n' ∨ ch = '\t' ∨ ch = '\r' ∨ ch = '\x08' ∨ ch = '\x0c' then 2
  else if ch.toNat < 32 then 6
  else ch.utf8Size

/-- Byte length of the JSON serialization of a string value (the two
surrounding quotes plus the escaped content). -/
def jsonStringBytes (s : String) : ℕ := 2 + (s.data.map escCost).sum

/-- Byte length of the decimal serialization of a natural number. -/
def numBytes (n : ℕ) : ℕ := (toString n).length

/-- `Buffer.byteLength(JSON.stringify(m))` for the metadata object of
the ingest call site, with an optional trailing `truncated: true`. -/
def metaSize (m : Meta) (truncated : Bool) : ℕ :=
  60 + jsonStringBytes m.repo + jsonStringBytes m.path + numBytes m.start
    + numBytes m.endTok + numBytes m.tokens + jsonStringBytes m.model
    + jsonStringBytes m.text + (if truncated then 17 else 0)

/-- The candidate record of the binary search:
`{...cur, text: original.slice(0, mid) + ellipsis}` (its `truncated`
flag is tracked separately). -/
def truncCand (m : Meta) (n : ℕ) : Meta :=
  { m with text := (⟨m.text.data.take n⟩ : String) ++ "…" }

/-- The `while (lo <= hi)` binary search of `fitMetadata`.  The upper
bound is carried as `hi1 = hi + 1` so the state stays in `ℕ` (in the
source `hi` reaches `-1` to exit the loop): the guard `lo ≤ hi` becomes
`lo < hi1`, `mid = ⌊(lo + hi) / 2⌋ = (lo + hi1 - 1) / 2`, and
`hi = mid - 1` becomes `hi1 = mid`. -/
def fitLoop (m : Meta) (maxBytes : ℕ) (lo hi1 : ℕ) (best : Option Meta) :
    Option Meta :=
  if _h : lo < hi1 then
    if metaSize (truncCand m ((lo + hi1 - 1) / 2)) true ≤ maxBytes then
      fitLoop m maxBytes ((lo + hi1 - 1) / 2 + 1) hi1
        (some (truncCand m ((lo + hi1 - 1) / 2)))
    else
      fitLoop m maxBytes lo ((lo + hi1 - 1) / 2) best
  else best
termination_by hi1 - lo
decreasing_by all_goals omega

/-- `fitMetadata` from src/ingest.ts; the `Bool` component is the
`truncated` flag of the returned record. -/
def fitMetadata (meta : Meta) (maxBytes : ℕ) : Meta × Bool :=
  if metaSize meta false ≤ maxBytes then (meta, false)
  else if meta.text.length = 0 then (meta, false)
  else
    match fitLoop meta maxBytes 0 (meta.text.length + 1) none with
    | some best => (best, true)
    | none => ({ meta with text := "" }, true)

theorem truncCand_zero (m : Meta) : truncCand m 0 = { m with text := "…" } := by
  unfold truncCand
  congr 1

theorem fitLoop_some_le (m : Meta) (maxBytes : ℕ) :
    ∀ (fuel lo hi1 : ℕ) (best : Option Meta), hi1 - lo ≤ fuel →
    (∀ b, best = some b → metaSize b true ≤ maxBytes) →
    ((metaSize (truncCand m lo) true ≤ maxBytes ∧ lo < hi1) ∨
      (∃ b, best = some b)) →
    ∃ b, fitLoop m maxBytes lo hi1 best = some b ∧
      metaSize b true ≤ maxBytes := by
  intro fuel
  induction fuel with
  | zero =>
    intro lo hi1 best hfuel hbest hdisj
    rw [fitLoop, dif_neg (by omega)]
    rcases hdisj with ⟨_, hlt⟩ | ⟨b, rfl⟩
    · omega
    · exact ⟨b, rfl, hbest b rfl⟩
  | succ fuel ih =>
    intro lo hi1 best hfuel hbest hdisj
    by_cases hlt : lo < hi1
    · rw [fitLoop, dif_pos hlt]
      by_cases hfit : metaSize (truncCand m ((lo + hi1 - 1) / 2)) true ≤ maxBytes
      · rw [if_pos hfit]
        exact ih ((lo + hi1 - 1) / 2 + 1) hi1 _ (by omega)
          (fun b hb => by rw [Option.some_inj] at hb; rw [← hb]; exact hfit)
          (Or.inr ⟨_, rfl⟩)
      · rw [if_neg hfit]
        refine ih lo ((lo + hi1 - 1) / 2) best (by omega) hbest ?_
        rcases hdisj with ⟨hfit₀, _⟩ | hsome
        · left
          refine ⟨hfit₀, ?_⟩
          have : lo ≠ (lo + hi1 - 1) / 2 := by
            intro heq
            rw [← heq] at hfit
            exact hfit hfit₀
          omega
        · exact Or.inr hsome
    · rw [fitLoop, dif_neg hlt]
      rcases hdisj with ⟨_, hlt'⟩ | ⟨b, rfl⟩
      · omega
      · exact ⟨b, rfl, hbest b rfl⟩

theorem truncCand_size_mono (m : Meta) (n n' : ℕ) (h : n ≤ n') :
    metaSize (truncCand m n) true ≤ metaSize (truncCand m n') true := by
  unfold metaSize truncCand jsonStringBytes
  simp only [String.data_append, List.map_append, List.sum_append]
  have hdecomp : m.text.data.take n' =
      m.text.data.take n ++ (m.text.data.take n').drop n := by
    have hsplit := List.take_append_drop n (m.text.data.take n')
    rw [List.take_take, min_eq_left h] at hsplit
    exact hsplit.symm
  have hsum : ((m.text.data.take n).map escCost).sum
      ≤ ((m.text.data.take n').map escCost).sum := by
    rw [hdecomp, List.map_append, List.sum_append]
    omega
  omega

theorem fitLoop_none (m : Meta) (maxBytes : ℕ)
    (hnone : ∀ n, ¬ metaSize (truncCand m n) true ≤ maxBytes) :
    ∀ (fuel lo hi1 : ℕ), hi1 - lo ≤ fuel →
    fitLoop m maxBytes lo hi1 none = none := by
  intro fuel
  induction fuel with
  | zero =>
    intro lo hi1 hfuel
    rw [fitLoop, dif_neg (by omega)]
  | succ fuel ih =>
    intro lo hi1 hfuel
    by_cases hlt : lo < hi1
    · rw [fitLoop, dif_pos hlt, if_neg (hnone _)]
      exact ih lo ((lo + hi1 - 1) / 2) (by omega)
    · rw [fitLoop, dif_neg hlt]

/-- C2 counterexample: a budget equal to the serialized size of the
record with empty `text` satisfies the claim's hypothesis, yet
`fitMetadata` returns a record whose serialized size exceeds the
budget, because even the shortest truncation candidate carries the
ellipsis marker and the 17-byte `truncated` flag. -/
theorem fitLoop_hello :
    fitLoop ⟨"r", "p", 0, 0, 0, "m", "hello"⟩ 74 0 6 none = none := by
  rw [fitLoop, dif_pos (by norm_num), if_neg (by decide)]
  rw [fitLoop, dif_pos (by norm_num), if_neg (by decide)]
  rw [fitLoop, dif_neg (by norm_num)]

theorem fitMetadata_claim_counterexample :
    metaSize { (⟨"r", "p", 0, 0, 0, "m", "hello"⟩ : Meta) with text := "" }
        false ≤ 74 ∧
    74 < metaSize (fitMetadata ⟨"r", "p", 0, 0, 0, "m", "hello"⟩ 74).1
      (fitMetadata ⟨"r", "p", 0, 0, 0, "m", "hello"⟩ 74).2 := by
  refine ⟨by decide, ?_⟩
  have heq : fitMetadata ⟨"r", "p", 0, 0, 0, "m", "hello"⟩ 74
      = ({ (⟨"r", "p", 0, 0, 0, "m", "hello"⟩ : Meta) with text := "" }, true) := by
    unfold fitMetadata
    rw [if_neg (by decide), if_neg (by decide)]
    have hlen : (⟨"r", "p", 0, 0, 0, "m", "hello"⟩ : Meta).text.length + 1 = 6 := by
      decide
    rw [hlen, fitLoop_hello]
  rw [heq]
  decide

/-- C2 (amended): for every record whose serialization with `text`
replaced by the ellipsis marker and `truncated = true` fits the budget,
`fitMetadata` returns a record of serialized size at most the budget;
and when even the length-0 truncation candidate does not fit, it
returns the best-effort record with empty text and `truncated = true`
instead of failing. -/
theorem fitMetadata_size (m : Meta) (B : ℕ) :
    (metaSize { m with text := "…" } true ≤ B →
      metaSize (fitMetadata m B).1 (fitMetadata m B).2 ≤ B) ∧
    (¬ metaSize m false ≤ B → m.text.length ≠ 0 →
      ¬ metaSize (truncCand m 0) true ≤ B →
      fitMetadata m B = ({ m with text := "" }, true)) := by
  constructor
  · intro h
    unfold fitMetadata
    by_cases h₁ : metaSize m false ≤ B
    · rw [if_pos h₁]
      exact h₁
    · rw [if_neg h₁]
      by_cases h₂ : m.text.length = 0
      · exfalso
        have hdata : m.text.data = [] := List.length_eq_zero.mp h₂
        have htext : jsonStringBytes m.text = 2 := by
          rw [jsonStringBytes, hdata]
          rfl
        have hell5 : jsonStringBytes "…" = 5 := by decide
        have hupd : metaSize { m with text := "…" } true
            = 60 + jsonStringBytes m.repo + jsonStringBytes m.path
              + numBytes m.start + numBytes m.endTok + numBytes m.tokens
              + jsonStringBytes m.model + jsonStringBytes "…" + 17 := rfl
        have hplain : metaSize m false
            = 60 + jsonStringBytes m.repo + jsonStringBytes m.path
              + numBytes m.start + numBytes m.endTok + numBytes m.tokens
              + jsonStringBytes m.model + jsonStringBytes m.text + 0 := rfl
        rw [hupd] at h
        rw [hplain, htext] at h₁
        rw [hell5] at h
        omega
      · rw [if_neg h₂]
        have hfit0 : metaSize (truncCand m 0) true ≤ B := by
          rw [truncCand_zero]
          exact h
        obtain ⟨b, hb, hble⟩ := fitLoop_some_le m B (m.text.length + 1) 0
          (m.text.length + 1) none (by omega) (fun b hb => nomatch hb)
          (Or.inl ⟨hfit0, by omega⟩)
        rw [hb]
        exact hble
  · intro h₁ h₂ h₀
    have hnone : ∀ n, ¬ metaSize (truncCand m n) true ≤ B := fun n hn =>
      h₀ (le_trans (truncCand_size_mono m 0 n (by omega)) hn)
    unfold fitMetadata
    rw [if_neg h₁, if_neg h₂,
      fitLoop_none m B hnone (m.text.length + 1) 0 (m.text.length + 1)
        (by omega)]

/-- Witness for the amended C2 at concrete inputs. -/
theorem fitMetadata_size_witness :
    (metaSize { (⟨"r", "p", 0, 0, 0, "m", "hello"⟩ : Meta) with text := "…" }
        true ≤ 40960 ∧
      metaSize (fitMetadata ⟨"r", "p", 0, 0, 0, "m", "hello"⟩ 40960).1
        (fitMetadata ⟨"r", "p", 0, 0, 0, "m", "hello"⟩ 40960).2 ≤ 40960) ∧
    fitMetadata ⟨"r", "p", 0, 0, 0, "m", "hello"⟩ 74
      = ({ (⟨"r", "p", 0, 0, 0, "m", "hello"⟩ : Meta) with text := "" }, true) :=
  ⟨⟨by decide, (fitMetadata_size ⟨"r", "p", 0, 0, 0, "m", "hello"⟩ 40960).1
      (by decide)⟩,
    (fitMetadata_size ⟨"r", "p", 0, 0, 0, "m", "hello"⟩ 74).2
      (by decide) (by decide) (by decide)⟩

/-! ### Batched embedding (src/ingest.ts `embedInBatches`, `ingestRepo`)

`embedInBatches` walks the inputs with
`for (let i = 0; i < inputs.length; i += BATCH_SIZE)`, re-tokenizes
every item of the current slice and throws when one exceeds
`MAX_TOKENS` tokens, then calls the embedding provider once per batch
and concatenates the returned vectors.  The tokenizer and the provider
are abstract parameters; a thrown `Error` is an `Except.error`.
`ingestRepo` afterwards checks `MODEL_DIMS` and every returned vector's
length. -/

def MAX_TOKENS : ℕ := 8192

def BATCH_SIZE : ℕ := 64

def MODEL_DIMS (model : String) : Option ℕ :=
  if model = "text-embedding-3-large" then some 3072
  else if model = "text-embedding-3-small" then some 1536
  else none

/-- The batch loop of `embedInBatches`. -/
def embedGo (enc : String → List ℕ) (provider : List String → List (List ℚ))
    (inputs : List String) (i : ℕ) : Except String (List (List ℚ)) :=
  if _h : i < inputs.length then
    match ((inputs.drop i).take BATCH_SIZE).find?
        (fun s => decide (MAX_TOKENS < (enc s).length)) with
    | some s =>
      .error ("Chunk exceeds 8192 tokens: " ++ toString (enc s).length)
    | none =>
      (embedGo enc provider inputs (i + BATCH_SIZE)).map
        (fun rest => provider ((inputs.drop i).take BATCH_SIZE) ++ rest)
  else .ok []
termination_by inputs.length - i
decreasing_by simp only [BATCH_SIZE]; omega

/-- `embedInBatches` from src/ingest.ts. -/
def embedInBatches (enc : String → List ℕ)
    (provider : List String → List (List ℚ)) (inputs : List String) :
    Except String (List (List ℚ)) :=
  embedGo enc provider inputs 0

/-- The dimension validation of `ingestRepo` (src/ingest.ts lines
104-108): unknown model or any vector of the wrong length fails the
ingestion. -/
def validateVectors (model : String) (vectors : List (List ℚ)) :
    Except String Unit :=
  match MODEL_DIMS model with
  | none => .error ("Unknown dims for model " ++ model)
  | some dim =>
    if vectors.any (fun v => decide (v.length ≠ dim)) then
      .error ("Embedding dim mismatch. Expected " ++ toString dim)
    else .ok ()

/-- The claim's batching: partition a list into consecutive slices of
at most `n` items. -/
def batchesOf (n : ℕ) (l : List String) : List (List String) :=
  if _h : l ≠ [] ∧ 0 < n then l.take n :: batchesOf n (l.drop n) else []
termination_by l.length
decreasing_by
  rw [List.length_drop]
  have := List.length_pos.mpr _h.1
  omega

theorem batchesOf_length_le (n : ℕ) (hn : 0 < n) :
    ∀ (fuel : ℕ) (l : List String), l.length ≤ fuel →
    (∀ b ∈ batchesOf n l, b.length ≤ n) ∧ (batchesOf n l).flatten = l := by
  intro fuel
  induction fuel with
  | zero =>
    intro l hl
    have : l = [] := List.length_eq_zero.mp (by omega)
    subst this
    rw [batchesOf, dif_neg (by simp)]
    simp
  | succ fuel ih =>
    intro l hl
    by_cases hg : l ≠ [] ∧ 0 < n
    · rw [batchesOf, dif_pos hg]
      have hlen : (l.drop n).length ≤ fuel := by
        rw [List.length_drop]
        have := List.length_pos.mpr hg.1
        omega
      obtain ⟨ih₁, ih₂⟩ := ih (l.drop n) hlen
      constructor
      · intro b hb
        rcases List.mem_cons.mp hb with rfl | hb
        · exact List.length_take_le n l
        · exact ih₁ b hb
      · rw [List.flatten_cons, ih₂, List.take_append_drop]
    · rw [batchesOf, dif_neg hg]
      rcases not_and_or.mp hg with hnil | hn'
      · rw [not_not.mp hnil]
        simp
      · exact absurd hn hn'

theorem embedGo_ok (enc : String → List ℕ)
    (provider : List String → List (List ℚ)) (inputs : List String) :
    ∀ (fuel i : ℕ), inputs.length - i ≤ fuel →
    (∀ s ∈ inputs.drop i, (enc s).length ≤ MAX_TOKENS) →
    embedGo enc provider inputs i
      = .ok ((batchesOf BATCH_SIZE (inputs.drop i)).map provider).flatten := by
  intro fuel
  induction fuel with
  | zero =>
    intro i hfuel hok
    have hge : inputs.length ≤ i := by omega
    rw [embedGo, dif_neg (by omega), List.drop_eq_nil_of_le hge]
    rw [batchesOf, dif_neg (by simp)]
    simp
  | succ fuel ih =>
    intro i hfuel hok
    by_cases hlt : i < inputs.length
    · rw [embedGo, dif_pos hlt]
      have hfind : ((inputs.drop i).take BATCH_SIZE).find?
          (fun s => decide (MAX_TOKENS < (enc s).length)) = none := by
        rw [List.find?_eq_none]
        intro s hs
        have : s ∈ inputs.drop i := List.mem_of_mem_take hs
        simp only [decide_eq_true_eq, not_lt]
        exact hok s this
      rw [hfind]
      have hdrop : inputs.drop (i + BATCH_SIZE) = (inputs.drop i).drop BATCH_SIZE := by
        rw [List.drop_drop]
      have hok' : ∀ s ∈ inputs.drop (i + BATCH_SIZE), (enc s).length ≤ MAX_TOKENS := by
        intro s hs
        rw [hdrop] at hs
        exact hok s (List.mem_of_mem_drop hs)
      rw [ih (i + BATCH_SIZE) (by simp only [BATCH_SIZE]; omega) hok']
      have hne : inputs.drop i ≠ [] := by
        rw [← List.length_pos, List.length_drop]
        omega
      conv_rhs => rw [batchesOf, dif_pos ⟨hne, by simp [BATCH_SIZE]⟩]
      rw [List.map_cons, List.flatten_cons, hdrop]
      rfl
    · rw [embedGo, dif_neg hlt, List.drop_eq_nil_of_le (by omega)]
      rw [batchesOf, dif_neg (by simp)]
      simp

theorem embedGo_err (enc : String → List ℕ)
    (provider : List String → List (List ℚ)) (inputs : List String) :
    ∀ (fuel i : ℕ), inputs.length - i ≤ fuel →
    (∃ s ∈ inputs.drop i, MAX_TOKENS < (enc s).length) →
    ∃ e, embedGo enc provider inputs i = .error e := by
  intro fuel
  induction fuel with
  | zero =>
    intro i hfuel hbad
    obtain ⟨s, hs, _⟩ := hbad
    rw [List.drop_eq_nil_of_le (by omega)] at hs
    exact absurd hs (List.not_mem_nil s)
  | succ fuel ih =>
    intro i hfuel hbad
    have hlt : i < inputs.length := by
      by_contra hcon
      obtain ⟨s, hs, _⟩ := hbad
      rw [List.drop_eq_nil_of_le (by omega)] at hs
      exact absurd hs (List.not_mem_nil s)
    rw [embedGo, dif_pos hlt]
    cases hfind : ((inputs.drop i).take BATCH_SIZE).find?
        (fun s => decide (MAX_TOKENS < (enc s).length)) with
    | some s => exact ⟨_, rfl⟩
    | none =>
      rw [List.find?_eq_none] at hfind
      obtain ⟨s, hs, hsbad⟩ := hbad
      have hs' : s ∈ inputs.drop (i + BATCH_SIZE) := by
        rw [← List.take_append_drop BATCH_SIZE (inputs.drop i)] at hs
        rcases List.mem_append.mp hs with hmem | hmem
        · exact absurd (by simpa using hsbad) (by simpa using hfind s hmem)
        · rw [List.drop_drop] at hmem
          exact hmem
      obtain ⟨e, he⟩ := ih (i + BATCH_SIZE) (by simp only [BATCH_SIZE]; omega)
        ⟨s, hs', hsbad⟩
      rw [he]
      exact ⟨e, rfl⟩

/-- C6 counterexample: the batch embedder does not validate that the
provider's returned vector count equals the batch size — a provider
returning no vectors for a one-item batch is accepted without error. -/
theorem embed_count_counterexample :
    embedInBatches (fun _ => [0]) (fun _ => []) ["a"]
      = .ok ([] : List (List ℚ)) ∧
    ([] : List (List ℚ)).length ≠ (["a"] : List String).length := by
  constructor
  · have h1 : (((["a"] : List String).drop 0).take BATCH_SIZE).find?
        (fun s => decide (MAX_TOKENS < ((fun _ : String => [(0 : ℕ)]) s).length))
          = none := by decide
    unfold embedInBatches
    rw [embedGo, dif_pos (by norm_num), h1]
    rw [embedGo, dif_neg (by simp [BATCH_SIZE])]
    rfl
  · decide

/-- C6 (amended): the batch embedder partitions its input into
consecutive batches of at most 64 items whose concatenation is the
whole input; when every item re-tokenizes to at most 8192 tokens it
succeeds with exactly the provider's outputs for those batches,
concatenated in order (nothing dropped or truncated); when some item
exceeds 8192 tokens it throws a descriptive error; and the ingestion
dimension check succeeds exactly when the model dimension is known and
every returned vector has that length.  The returned vector count per
batch is not validated. -/
theorem embed_batches_spec (enc : String → List ℕ)
    (provider : List String → List (List ℚ)) (inputs : List String)
    (model : String) (vecs : List (List ℚ)) :
    (∀ b ∈ batchesOf 64 inputs, b.length ≤ 64) ∧
    (batchesOf 64 inputs).flatten = inputs ∧
    ((∀ s ∈ inputs, (enc s).length ≤ 8192) →
      embedInBatches enc provider inputs
        = .ok ((batchesOf 64 inputs).map provider).flatten) ∧
    ((∃ s ∈ inputs, 8192 < (enc s).length) →
      ∃ e, embedInBatches enc provider inputs = .error e) ∧
    (validateVectors model vecs = .ok () ↔
      ∃ d, MODEL_DIMS model = some d ∧ ∀ v ∈ vecs, v.length = d) := by
  obtain ⟨hb₁, hb₂⟩ := batchesOf_length_le 64 (by norm_num) inputs.length inputs le_rfl
  refine ⟨hb₁, hb₂, ?_, ?_, ?_⟩
  · intro hok
    have := embedGo_ok enc provider inputs inputs.length 0 (by omega)
      (by simpa using hok)
    simpa [embedInBatches, BATCH_SIZE] using this
  · intro hbad
    have := embedGo_err enc provider inputs inputs.length 0 (by omega)
      (by simpa using hbad)
    simpa [embedInBatches] using this
  · cases hdim : MODEL_DIMS model with
    | none =>
      simp only [validateVectors, hdim]
      constructor
      · intro h
        exact absurd h (by simp)
      · rintro ⟨d, hd, _⟩
        exact absurd hd (by simp)
    | some dim =>
      simp only [validateVectors, hdim]
      by_cases hany : vecs.any (fun v => decide (v.length ≠ dim))
      · rw [if_pos hany]
        constructor
        · intro h
          exact absurd h (by simp)
        · rintro ⟨d, hd, hall⟩
          rw [Option.some_inj] at hd
          subst hd
          rw [List.any_eq_true] at hany
          obtain ⟨v, hv, hvbad⟩ := hany
          simp only [decide_eq_true_eq] at hvbad
          exact absurd (hall v hv) hvbad
      · rw [if_neg hany]
        constructor
        · intro _
          refine ⟨dim, rfl, ?_⟩
          intro v hv
          by_contra hcon
          exact hany (List.any_eq_true.mpr ⟨v, hv, by simpa using hcon⟩)
        · intro _
          rfl

/-- Witness for the amended C6 at concrete inputs. -/
theorem embed_batches_spec_witness :
    ((∀ s ∈ (["a", "b"] : List String),
        ((fun _ : String => [(0 : ℕ)]) s).length ≤ 8192) ∧
      embedInBatches (fun _ : String => [(0 : ℕ)])
          (fun _ => [[(1 : ℚ)]]) ["a", "b"]
        = .ok ((batchesOf 64 ["a", "b"]).map (fun _ => [[(1 : ℚ)]])).flatten) ∧
    (validateVectors "text-embedding-3-small" [] = .ok () ↔
      ∃ d, MODEL_DIMS "text-embedding-3-small" = some d ∧
        ∀ v ∈ ([] : List (List ℚ)), v.length = d) :=
  ⟨⟨by decide,
      (embed_batches_spec (fun _ : String => [(0 : ℕ)]) (fun _ => [[(1 : ℚ)]])
        ["a", "b"] "m" []).2.2.1 (by decide)⟩,
    (embed_batches_spec (fun _ : String => [(0 : ℕ)]) (fun _ => [[(1 : ℚ)]])
      ["a", "b"] "text-embedding-3-small" []).2.2.2.2⟩

/-! ### BM25 loading and the hybrid search error path (src/search.ts)

`readBM25IfExists` returns the file content, `null` on `ENOENT`, and
rethrows any other I/O error; `loadMini` additionally returns `null`
for an empty file or when the MiniSearch constructor cannot be loaded.
The MiniSearch index itself is external: it is modelled as the parsed
line list plus an abstract search function. -/

inductive FsRead where
  | content (s : String)
  | enoent
  | ioError (e : String)

def readBM25IfExists : FsRead → Except String (Option String)
  | .content s => .ok (some s)
  | .enoent => .ok none
  | .ioError e => .error e

def loadMini (miniAvailable : Bool) : Option String → Option (List String)
  | none => none
  | some content =>
    if content = "" then none
    else if miniAvailable then some (content.trim.splitOn "\n") else none

/-- The pure data path of `hybridSearch` around the lexical index: read
the persisted file, build the BM25 ranking (top-40, empty when the
index is unavailable), fuse with the vector matches and resolve
metadata. -/
def hybridCore {μ : Type} (miniAvailable : Bool)
    (search : List String → String → List RankedItem) (query : String)
    (file : FsRead) (ms : List (PineMatch μ)) : Except String (List μ) :=
  match readBM25IfExists file with
  | .error e => .error e
  | .ok content =>
    .ok (hybridResults
      (match loadMini miniAvailable content with
        | some docs => (search docs query).take 40
        | none => []) ms)

theorem dedupFirst_eq_self_aux :
    ∀ (fuel : ℕ) (l : List String), l.length ≤ fuel → l.Nodup →
    dedupFirst l = l := by
  intro fuel
  induction fuel with
  | zero =>
    intro l hl _
    have hnil : l = [] := List.length_eq_zero.mp (Nat.le_zero.mp hl)
    subst hnil
    rw [dedupFirst]
  | succ fuel ih =>
    intro l hl hnd
    cases l with
    | nil => rw [dedupFirst]
    | cons a as =>
      rw [dedupFirst]
      rw [List.nodup_cons] at hnd
      have hfilter : as.filter (fun y => ¬ y = a) = as := by
        rw [List.filter_eq_self]
        intro y hy
        simp only [decide_not, Bool.not_eq_true', decide_eq_false_iff_not]
        intro heq
        exact hnd.1 (heq ▸ hy)
      rw [hfilter, ih as (by simp at hl; omega) hnd.2]

theorem dedupFirst_eq_self (l : List String) (h : l.Nodup) :
    dedupFirst l = l :=
  dedupFirst_eq_self_aux l.length l le_rfl h

theorem fromEntries_not_mem {β : Type} (l : List (String × β)) (key : String)
    (h : ∀ p ∈ l, p.1 ≠ key) : fromEntries l key = none := by
  unfold fromEntries
  have : l.reverse.find? (fun p => decide (p.1 = key)) = none := by
    rw [List.find?_eq_none]
    intro p hp
    simpa using h p (List.mem_reverse.mp hp)
  rw [this]
  rfl

theorem fromEntries_nodup {β : Type} :
    ∀ (l : List (String × β)), (l.map Prod.fst).Nodup →
    ∀ (key : String) (v : β), (key, v) ∈ l → fromEntries l key = some v := by
  intro l
  induction l with
  | nil =>
    intro _ key v hmem
    exact absurd hmem (List.not_mem_nil _)
  | cons e es ih =>
    intro hnd key v hmem
    rw [List.map_cons, List.nodup_cons] at hnd
    rw [fromEntries_cons]
    rcases List.mem_cons.mp hmem with rfl | hmem
    · have : fromEntries es key = none := by
        apply fromEntries_not_mem
        intro p hp heq
        have hmem' : p.1 ∈ es.map Prod.fst := List.mem_map_of_mem Prod.fst hp
        rw [heq] at hmem'
        exact hnd.1 hmem'
      rw [this, Option.none_or, if_pos rfl]
    · rw [ih hnd.2 key v hmem]
      rfl

theorem metaById_mem {μ : Type} (ms : List (PineMatch μ))
    (h : (ms.map (·.id)).Nodup) (m : PineMatch μ) (hm : m ∈ ms) :
    metaById ms m.id = m.metadata := by
  unfold metaById
  have hnd : ((ms.map (fun m => (m.id, m.metadata))).map Prod.fst).Nodup := by
    rw [List.map_map]
    exact h
  rw [fromEntries_nodup (ms.map (fun m => (m.id, m.metadata))) hnd m.id
    m.metadata (List.mem_map_of_mem _ hm)]
  rfl

theorem metaById_not_mem {μ : Type} (ms : List (PineMatch μ)) (id : String)
    (h : ¬ id ∈ ms.map (·.id)) : metaById ms id = none := by
  unfold metaById
  rw [fromEntries_not_mem]
  · rfl
  · intro p hp heq
    obtain ⟨m, hm, rfl⟩ := List.mem_map.mp hp
    exact h (heq ▸ List.mem_map_of_mem _ hm)

/-- With an empty lexical ranking and pairwise-distinct match ids, the
`rrf` candidates are already sorted descending, so fusion preserves the
vector order. -/
theorem rrf_nil_left (b : List RankedItem) (k : ℚ) (hk : 0 ≤ k)
    (hb : (b.map (·.id)).Nodup) :
    rrf [] b k = b.map (fun r => ⟨r.id, rrfScore [] b k r.id⟩) := by
  have hcand : rrfCandidates [] b k
      = b.map (fun r => ⟨r.id, rrfScore [] b k r.id⟩) := by
    unfold rrfCandidates
    rw [List.map_nil, List.nil_append, dedupFirst_eq_self _ hb, List.map_map]
    rfl
  have hsorted : (rrfCandidates [] b k).Pairwise (fun x y => scoreLE x y) := by
    rw [hcand]
    rw [List.pairwise_map]
    rw [List.pairwise_iff_getElem]
    intro i j hi hj hij
    simp only [scoreLE, decide_eq_true_eq]
    have hi' : i < (List.map (fun x => x.id) b).length := by simpa using hi
    have hj' : j < (List.map (fun x => x.id) b).length := by simpa using hj
    have hgi : rank b (b[i].id) = some (i + 1) := by
      rw [rank_eq b hb]
      rw [if_pos (List.mem_map_of_mem _ (List.getElem_mem hi))]
      have hmap : (List.map (fun x => x.id) b)[i] = b[i].id :=
        List.getElem_map _
      rw [← hmap, List.indexOf_getElem hb i hi']
    have hgj : rank b (b[j].id) = some (j + 1) := by
      rw [rank_eq b hb]
      rw [if_pos (List.mem_map_of_mem _ (List.getElem_mem hj))]
      have hmap : (List.map (fun x => x.id) b)[j] = b[j].id :=
        List.getElem_map _
      rw [← hmap, List.indexOf_getElem hb j hj']
    unfold rrfScore
    rw [hgi, hgj]
    simp only [rank, fromEntries, List.enum_nil, List.map_nil,
      List.reverse_nil, List.find?_nil, Option.map_none', Option.getD_none,
      Option.getD_some]
    have h₁ : (0 : ℚ) < k + (i + 1 : ℕ) := by
      push_cast
      linarith
    have h₂ : (k + (i + 1 : ℕ) : ℚ) ≤ k + (j + 1 : ℕ) := by
      push_cast
      have : (i : ℚ) ≤ j := by exact_mod_cast le_of_lt hij
      linarith
    have := one_div_le_one_div_of_le h₁ h₂
    linarith
  rw [rrf, List.mergeSort_of_sorted hsorted, hcand]

/-- C8: when the per-repository `.bm25.jsonl` file is absent, hybrid
search raises no error, the lexical ranker contributes an empty
ranking, and the result is the vector-only ranking: the metadata of the
top-20 vector matches in their original order. -/
theorem hybrid_absent_file {μ : Type} (miniAvailable : Bool)
    (search : List String → String → List RankedItem) (query : String)
    (ms : List (PineMatch μ)) (h : (ms.map (·.id)).Nodup) :
    hybridCore miniAvailable search query FsRead.enoent ms
      = .ok (hybridResults [] ms) ∧
    hybridResults [] ms = (ms.take 20).filterMap (·.metadata) := by
  constructor
  · rfl
  · have hknn : (knnOf ms).map (·.id) = ms.map (·.id) := by
      unfold knnOf
      rw [List.map_map]
      rfl
    have hknnnd : ((knnOf ms).map (·.id)).Nodup := by
      rw [hknn]
      exact h
    unfold hybridResults hybridFused
    rw [rrf_nil_left (knnOf ms) 60 (by norm_num) hknnnd]
    unfold knnOf
    rw [List.map_map, ← List.map_take, List.filterMap_map]
    apply List.filterMap_congr
    intro m hm
    show metaById ms m.id = m.metadata
    exact metaById_mem ms h m (List.mem_of_mem_take hm)

/-- Witness for C8 at concrete inputs. -/
theorem hybrid_absent_file_witness :
    ((([⟨"a", some 1, some 0⟩, ⟨"b", some (1/2), none⟩] :
        List (PineMatch ℕ)).map (·.id)).Nodup) ∧
    hybridCore true (fun _ _ => []) "q" FsRead.enoent
        [⟨"a", some 1, some 0⟩, ⟨"b", some (1/2), none⟩]
      = .ok (hybridResults []
          [⟨"a", some 1, some 0⟩, ⟨"b", some (1/2), none⟩]) :=
  ⟨by decide,
    (hybrid_absent_file true (fun _ _ => []) "q"
      [⟨"a", some 1, some 0⟩, ⟨"b", some (1/2), none⟩] (by decide)).1⟩

theorem hybridFused_ids_nodup {μ : Type} (bm : List RankedItem)
    (ms : List (PineMatch μ)) :
    ((hybridFused bm ms).map (·.id)).Nodup := by
  have hcand : ((rrfCandidates bm (knnOf ms) 60).map (·.id)).Nodup := by
    unfold rrfCandidates
    rw [List.map_map]
    have hcomp : ((fun x => x.id) ∘
        fun id => (⟨id, rrfScore bm (knnOf ms) 60 id⟩ : RankedItem)) = id := rfl
    rw [hcomp, List.map_id]
    exact nodup_dedupFirst _
  have hperm : (rrf bm (knnOf ms) 60).map (·.id)
      ~ (rrfCandidates bm (knnOf ms) 60).map (·.id) :=
    (List.mergeSort_perm _ _).map _
  have hr : ((rrf bm (knnOf ms) 60).map (·.id)).Nodup :=
    hperm.symm.nodup hcand
  exact List.Nodup.sublist ((List.take_sublist 20 _).map _) hr

theorem metaById_some_mem {μ : Type} (ms : List (PineMatch μ)) (id : String)
    (x : μ) (h : metaById ms id = some x) : ∃ m ∈ ms, m.metadata = some x := by
  unfold metaById at h
  cases hfe : fromEntries (ms.map (fun m => (m.id, m.metadata))) id with
  | none =>
    rw [hfe] at h
    exact absurd h (by simp)
  | some oo =>
    rw [hfe] at h
    have hoo : oo = some x := by simpa using h
    unfold fromEntries at hfe
    obtain ⟨p, hfind, hp2⟩ := Option.map_eq_some'.mp hfe
    have hpmem : p ∈ (ms.map (fun m => (m.id, m.metadata))).reverse :=
      List.mem_of_find?_eq_some hfind
    rw [List.mem_reverse] at hpmem
    obtain ⟨m, hm, hmp⟩ := List.mem_map.mp hpmem
    refine ⟨m, hm, ?_⟩
    have : m.metadata = p.2 := by rw [← hmp]
    rw [this, hp2, hoo]

theorem filterMap_metaById_length {μ : Type} (ms : List (PineMatch μ)) :
    ∀ (l : List RankedItem),
    (l.filterMap (fun f => metaById ms f.id)).length
      = (l.filter (fun f => (metaById ms f.id).isSome)).length := by
  intro l
  induction l with
  | nil => rfl
  | cons x xs ih =>
    cases hx : metaById ms x.id with
    | none => simp [List.filterMap_cons, List.filter_cons, hx, ih]
    | some v => simp [List.filterMap_cons, List.filter_cons, hx, ih]

/-- C10: every element of the hybrid search output is the metadata of
some vector match of the same call; an id absent from the vector
matches resolves to no metadata and is dropped; the fused ids are
pairwise distinct, and the output has at most `min 20 (#matches)`
entries. -/
theorem hybrid_results_vector_only {μ : Type} (bm : List RankedItem)
    (ms : List (PineMatch μ)) :
    (∀ id, ¬ id ∈ ms.map (·.id) → metaById ms id = none) ∧
    (∀ x ∈ hybridResults bm ms, ∃ m ∈ ms, m.metadata = some x) ∧
    ((hybridFused bm ms).map (·.id)).Nodup ∧
    (hybridResults bm ms).length ≤ 20 ∧
    (hybridResults bm ms).length ≤ ms.length := by
  refine ⟨metaById_not_mem ms, ?_, hybridFused_ids_nodup bm ms, ?_, ?_⟩
  · intro x hx
    unfold hybridResults at hx
    obtain ⟨f, _, hf⟩ := List.mem_filterMap.mp hx
    exact metaById_some_mem ms f.id x hf
  · refine le_trans (List.length_filterMap_le _ _) ?_
    unfold hybridFused
    exact List.length_take_le _ _
  · unfold hybridResults
    rw [filterMap_metaById_length ms]
    have hnd : (((hybridFused bm ms).filter
        (fun f => (metaById ms f.id).isSome)).map (·.id)).Nodup :=
      List.Nodup.sublist ((List.filter_sublist _).map _)
        (hybridFused_ids_nodup bm ms)
    have hsub : (((hybridFused bm ms).filter
          (fun f => (metaById ms f.id).isSome)).map (·.id)).toFinset
        ⊆ (ms.map (·.id)).toFinset := by
      intro a ha
      rw [List.mem_toFinset] at ha ⊢
      obtain ⟨f, hf, rfl⟩ := List.mem_map.mp ha
      have hsome := (List.mem_filter.mp hf).2
      by_contra hcon
      rw [metaById_not_mem ms f.id hcon] at hsome
      exact absurd hsome (by simp)
    calc ((hybridFused bm ms).filter
          (fun f => (metaById ms f.id).isSome)).length
        = (((hybridFused bm ms).filter
            (fun f => (metaById ms f.id).isSome)).map (·.id)).length := by
          rw [List.length_map]
      _ = (((hybridFused bm ms).filter
            (fun f => (metaById ms f.id).isSome)).map (·.id)).toFinset.card :=
          (List.toFinset_card_of_nodup hnd).symm
      _ ≤ (ms.map (·.id)).toFinset.card := Finset.card_le_card hsub
      _ ≤ (ms.map (·.id)).length := List.toFinset_card_le _
      _ = ms.length := List.length_map _ _

/-- Witness for C10 at concrete inputs. -/
theorem hybrid_results_vector_only_witness :
    (¬ "z" ∈ ([⟨"a", some 1, some 0⟩] : List (PineMatch ℕ)).map (·.id)) ∧
    metaById ([⟨"a", some 1, some 0⟩] : List (PineMatch ℕ)) "z" = none :=
  ⟨by decide,
    (hybrid_results_vector_only [] [⟨"a", some 1, some 0⟩]).1 "z" (by decide)⟩

/-! ### Skill search (src/search.ts `findProjectsBySkill`)

`findProjectsBySkill` embeds the skill, queries the vector store
globally with `topK = 100`, then groups the matches by repository in an
insertion-ordered `Map`, union-ing tag sets, taking the maximum
per-match adjusted score (1.5× boost when the match's own tag list has
a case-insensitive bidirectional substring hit for the skill), and
returns the repositories sorted descending by score, truncated to
`limit`.  The embedding and vector query are external; the pure
aggregation over the returned matches is modelled here.
`toLowerCase` is modelled as a character-wise lowercase map. -/

inductive TechStack where
  | arr (tags : List String)
  | str (s : String)
deriving Repr, DecidableEq

/-- The tag list of one match: the array format as-is, the legacy
format split on commas, trimmed, with empty entries dropped (an absent
`techStack` is the legacy empty string). -/
def techStackArr : TechStack → List String
  | .arr tags => tags
  | .str s => ((s.splitOn ",").map (fun t => t.trim)).filter (fun t => ¬ t = "")

structure SkillMeta where
  repo : Option String
  techStack : TechStack
  path : Option String
deriving Repr, DecidableEq

structure SkillMatch where
  score : Option ℚ
  metadata : Option SkillMeta
deriving Repr, DecidableEq

/-- `s.toLowerCase()`. -/
def toLowerStr (s : String) : String := ⟨s.data.map Char.toLower⟩

/-- `t.toLowerCase().includes(skillLower) ||
skillLower.includes(t.toLowerCase())`. -/
def tagMatches (skill : String) (t : String) : Bool :=
  decide ((toLowerStr skill).data <:+: (toLowerStr t).data) ||
    decide ((toLowerStr t).data <:+: (toLowerStr skill).data)

/-- `techStackArr.some(t => ...)`. -/
def hasSkill (skill : String) (tags : List String) : Bool :=
  tags.any (tagMatches skill)

/-- `continue` guard: a match contributes only when its metadata and a
non-empty `repo` field are present. -/
def matchRepo (mt : SkillMatch) : Option String :=
  match mt.metadata with
  | none => none
  | some meta =>
    match meta.repo with
    | none => none
    | some r => if r = "" then none else some r

def matchTags (mt : SkillMatch) : List String :=
  match mt.metadata with
  | some meta => techStackArr meta.techStack
  | none => []

/-- `if (meta.path) ...`: an absent or empty path is skipped. -/
def matchPath (mt : SkillMatch) : Option String :=
  match mt.metadata with
  | none => none
  | some meta =>
    match meta.path with
    | none => none
    | some q => if q = "" then none else some q

/-- `(match.score || 0) * (hasSkill ? 1.5 : 1.0)`. -/
def adjustedScore (skill : String) (mt : SkillMatch) : ℚ :=
  mt.score.getD 0 * (if hasSkill skill (matchTags mt) then 3 / 2 else 1)

structure RepoData where
  score : ℚ
  techStack : List String
  paths : List String
  matchCount : ℕ
deriving Repr, DecidableEq

/-- `Math.max` on exact rationals, written so that it evaluates. -/
def qmax (a b : ℚ) : ℚ := if a ≤ b then b else a

theorem qmax_eq_max (a b : ℚ) : qmax a b = max a b := by
  unfold qmax
  rw [max_def]

/-- `Set.prototype.add`: insertion-ordered, first occurrence kept. -/
def setAdd (l : List String) (x : String) : List String :=
  if x ∈ l then l else l ++ [x]

/-- The in-place `Map` update: maximum score, tag-set union, path-set
insertion and match count increment for the entry of repository `r`. -/
def updateEntry (skill : String) (mt : SkillMatch) (r : String)
    (p : String × RepoData) : String × RepoData :=
  if p.1 = r then
    (r, ⟨qmax p.2.score (adjustedScore skill mt),
      (matchTags mt).foldl setAdd p.2.techStack,
      (match matchPath mt with
        | some q => setAdd p.2.paths q
        | none => p.2.paths),
      p.2.matchCount + 1⟩)
  else p

/-- One iteration of the `for (const match of matches)` loop building
`repoMap` (a JavaScript `Map`, modelled as an insertion-ordered
association list with unique keys). -/
def skillStep (skill : String) (acc : List (String × RepoData))
    (mt : SkillMatch) : List (String × RepoData) :=
  match matchRepo mt with
  | none => acc
  | some r =>
    match acc.find? (fun p => p.1 = r) with
    | some _ => acc.map (updateEntry skill mt r)
    | none =>
      acc ++ [(r, ⟨adjustedScore skill mt, (matchTags mt).foldl setAdd [],
        (match matchPath mt with | some q => [q] | none => []), 1⟩)]

structure ProjectMatch where
  repo : String
  techStack : List String
  score : ℚ
  samplePaths : List String
deriving Repr, DecidableEq

/-- Descending comparison for `.sort((a, b) => b.score - a.score)`. -/
def projLE (x y : ProjectMatch) : Bool := decide (y.score ≤ x.score)

/-- The pure aggregation of `findProjectsBySkill` over the returned
vector matches (`limit` defaults to 20 at the call site). -/
def findProjectsBySkill (skill : String) (ms : List SkillMatch)
    (limit : ℕ) : List ProjectMatch :=
  (((ms.foldl (skillStep skill) []).map
      (fun p => (⟨p.1, p.2.techStack, p.2.score, p.2.paths.take 5⟩ :
        ProjectMatch))).mergeSort projLE).take limit

/-- The adjusted scores of the matches of one repository. -/
def repoScores (skill : String) (ms : List SkillMatch) (r : String) :
    List ℚ :=
  (ms.filter (fun mt => matchRepo mt = some r)).map (adjustedScore skill)

/-- The concatenated tag lists of the matches of one repository. -/
def repoTags (ms : List SkillMatch) (r : String) : List String :=
  (ms.filter (fun mt => matchRepo mt = some r)).flatMap matchTags

/-- The claim's scoring rule, for comparison: the boost is decided by
the repository's unioned tag set, and applied to every match of the
repository. -/
def specSkillScore (skill : String) (ms : List SkillMatch) (r : String) :
    ℚ :=
  (((ms.filter (fun mt => matchRepo mt = some r)).map
      (fun mt => mt.score.getD 0 *
        (if hasSkill skill (repoTags ms r) then 3 / 2 else 1))).foldl qmax 0)

theorem repoScores_append (skill : String) (ms : List SkillMatch)
    (mt : SkillMatch) (r : String) :
    repoScores skill (ms ++ [mt]) r
      = repoScores skill ms r
        ++ (if matchRepo mt = some r then [adjustedScore skill mt] else []) := by
  unfold repoScores
  rw [List.filter_append, List.map_append]
  congr 1
  by_cases h : matchRepo mt = some r <;>
    simp [List.filter_cons, h]

theorem repoTags_append (ms : List SkillMatch) (mt : SkillMatch) (r : String) :
    repoTags (ms ++ [mt]) r
      = repoTags ms r ++ (if matchRepo mt = some r then matchTags mt else []) := by
  unfold repoTags
  rw [List.filter_append, List.flatMap_append]
  congr 1
  by_cases h : matchRepo mt = some r <;>
    simp [List.filter_cons, h]

theorem mem_foldl_setAdd :
    ∀ (tags l : List String) (t : String),
    t ∈ tags.foldl setAdd l ↔ t ∈ l ∨ t ∈ tags := by
  intro tags
  induction tags with
  | nil => simp
  | cons a as ih =>
    intro l t
    rw [List.foldl_cons, ih]
    unfold setAdd
    by_cases h : a ∈ l
    · rw [if_pos h]
      constructor
      · rintro (ht | ht)
        · exact Or.inl ht
        · exact Or.inr (List.mem_cons_of_mem a ht)
      · rintro (ht | ht)
        · exact Or.inl ht
        · rcases List.mem_cons.mp ht with rfl | ht
          · exact Or.inl h
          · exact Or.inr ht
    · rw [if_neg h]
      constructor
      · rintro (ht | ht)
        · rcases List.mem_append.mp ht with ht | ht
          · exact Or.inl ht
          · rw [List.mem_singleton] at ht
            subst ht
            exact Or.inr (List.mem_cons_self t as)
        · exact Or.inr (List.mem_cons_of_mem a ht)
      · rintro (ht | ht)
        · exact Or.inl (List.mem_append_left _ ht)
        · rcases List.mem_cons.mp ht with rfl | ht
          · exact Or.inl (List.mem_append_right _ (List.mem_singleton_self t))
          · exact Or.inr ht

theorem repoTags_of_scores_nil (ms : List SkillMatch) (skill : String)
    (r : String) (h : repoScores skill ms r = []) : repoTags ms r = [] := by
  unfold repoScores at h
  unfold repoTags
  rw [List.map_eq_nil_iff.mp h]
  rfl

/-- Soundness and completeness of the `repoMap` fold: each stored entry
carries the maximum per-match adjusted score of its repository and the
union of the matched tag lists; every repository with a contributing
match is present. -/
theorem foldl_skillStep_inv (skill : String) (ms : List SkillMatch) :
    (∀ r d, (r, d) ∈ ms.foldl (skillStep skill) [] →
      d.score ∈ repoScores skill ms r ∧
      (∀ s ∈ repoScores skill ms r, s ≤ d.score) ∧
      (∀ t, t ∈ d.techStack ↔ t ∈ repoTags ms r)) ∧
    (∀ r, repoScores skill ms r ≠ [] →
      ∃ d, (r, d) ∈ ms.foldl (skillStep skill) []) := by
  induction ms using List.reverseRecOn with
  | nil =>
    constructor
    · intro r d hmem
      exact absurd hmem (List.not_mem_nil _)
    · intro r hr
      exact absurd rfl hr
  | append_singleton ms mt ih =>
    obtain ⟨ih2, ih3⟩ := ih
    rw [List.foldl_append, List.foldl_cons, List.foldl_nil]
    cases hrep : matchRepo mt with
    | none =>
      constructor
      · intro r d hmem
        simp only [skillStep, hrep] at hmem
        rw [repoScores_append skill ms mt r, hrep,
          if_neg (by simp), List.append_nil,
          repoTags_append ms mt r, hrep, if_neg (by simp), List.append_nil]
        exact ih2 r d hmem
      · intro r hr
        rw [repoScores_append skill ms mt r, hrep,
          if_neg (by simp), List.append_nil] at hr
        simp only [skillStep, hrep]
        exact ih3 r hr
    | some r0 =>
      cases hfind : (ms.foldl (skillStep skill) []).find?
          (fun p => p.1 = r0) with
      | none =>
        have hnoentry : ∀ d, ¬ (r0, d) ∈ ms.foldl (skillStep skill) [] := by
          intro d hd
          have := List.find?_eq_none.mp hfind _ hd
          simp at this
        have hscores0 : repoScores skill ms r0 = [] := by
          by_contra hne
          obtain ⟨d, hd⟩ := ih3 r0 hne
          exact hnoentry d hd
        constructor
        · intro r d hmem
          simp only [skillStep, hrep, hfind] at hmem
          rcases List.mem_append.mp hmem with hm2 | hm2
          · have hrne : r ≠ r0 := by
              rintro rfl
              exact hnoentry d hm2
            rw [repoScores_append skill ms mt r, hrep,
              if_neg (by simpa using fun h => hrne h.symm), List.append_nil,
              repoTags_append ms mt r, hrep,
              if_neg (by simpa using fun h => hrne h.symm), List.append_nil]
            exact ih2 r d hm2
          · rw [List.mem_singleton] at hm2
            have hr : r = r0 := congrArg Prod.fst hm2
            subst hr
            have hd : d = ⟨adjustedScore skill mt,
                (matchTags mt).foldl setAdd [],
                (match matchPath mt with | some q => [q] | none => []), 1⟩ :=
              congrArg Prod.snd hm2
            subst hd
            rw [repoScores_append skill ms mt r, hrep, if_pos rfl, hscores0,
              List.nil_append,
              repoTags_append ms mt r, hrep, if_pos rfl,
              repoTags_of_scores_nil ms skill r hscores0, List.nil_append]
            refine ⟨List.mem_singleton_self _, ?_, ?_⟩
            · intro s hs
              rw [List.mem_singleton] at hs
              exact le_of_eq hs
            · intro t
              show t ∈ (matchTags mt).foldl setAdd [] ↔ _
              rw [mem_foldl_setAdd]
              simp
        · intro r hr
          simp only [skillStep, hrep, hfind]
          by_cases hr0 : r = r0
          · subst hr0
            exact ⟨_, List.mem_append_right _ (List.mem_singleton_self _)⟩
          · rw [repoScores_append skill ms mt r, hrep,
              if_neg (by simpa using fun h => hr0 h.symm),
              List.append_nil] at hr
            obtain ⟨d, hd⟩ := ih3 r hr
            exact ⟨d, List.mem_append_left _ hd⟩
      | some entry =>
        constructor
        · intro r d hmem
          simp only [skillStep, hrep, hfind] at hmem
          obtain ⟨p, hp, hpe⟩ := List.mem_map.mp hmem
          by_cases hpr : p.1 = r0
          · rw [updateEntry, if_pos hpr] at hpe
            have hr : r = r0 := (congrArg Prod.fst hpe).symm
            subst hr
            have hd := (congrArg Prod.snd hpe).symm
            obtain ⟨hin, hmax, htags⟩ := ih2 r p.2 (by
              have hpeta : p = (r, p.2) := by
                rw [← hpr]
              rw [← hpeta]
              exact hp)
            rw [repoScores_append skill ms mt r, hrep, if_pos rfl,
              repoTags_append ms mt r, hrep, if_pos rfl]
            subst hd
            refine ⟨?_, ?_, ?_⟩
            · show qmax p.2.score (adjustedScore skill mt) ∈ _
              rw [qmax_eq_max]
              rcases max_choice p.2.score (adjustedScore skill mt) with hm | hm
              · rw [hm]
                exact List.mem_append_left _ hin
              · rw [hm]
                exact List.mem_append_right _ (List.mem_singleton_self _)
            · intro s hs
              show s ≤ qmax p.2.score (adjustedScore skill mt)
              rw [qmax_eq_max]
              rcases List.mem_append.mp hs with hs | hs
              · exact le_trans (hmax s hs) (le_max_left _ _)
              · rw [List.mem_singleton] at hs
                rw [hs]
                exact le_max_right _ _
            · intro t
              show t ∈ (matchTags mt).foldl setAdd p.2.techStack ↔ _
              rw [mem_foldl_setAdd, List.mem_append, htags t]
          · rw [updateEntry, if_neg hpr] at hpe
            rw [hpe] at hp hpr
            rw [repoScores_append skill ms mt r, hrep,
              if_neg (by simpa using fun h => hpr h.symm), List.append_nil,
              repoTags_append ms mt r, hrep,
              if_neg (by simpa using fun h => hpr h.symm), List.append_nil]
            exact ih2 r d hp
        · intro r hr
          simp only [skillStep, hrep, hfind]
          by_cases hr0 : r = r0
          · subst hr0
            have hentry : entry ∈ ms.foldl (skillStep skill) [] :=
              List.mem_of_find?_eq_some hfind
            have hkey : entry.1 = r := by
              have := List.find?_some hfind
              simpa using this
            refine ⟨⟨qmax entry.2.score (adjustedScore skill mt),
                (matchTags mt).foldl setAdd entry.2.techStack,
                (match matchPath mt with
                  | some q => setAdd entry.2.paths q
                  | none => entry.2.paths),
                entry.2.matchCount + 1⟩,
              List.mem_map.mpr ⟨entry, hentry, ?_⟩⟩
            rw [updateEntry, if_pos hkey]
          · rw [repoScores_append skill ms mt r, hrep,
              if_neg (by simpa using fun h => hr0 h.symm),
              List.append_nil] at hr
            obtain ⟨d, hd⟩ := ih3 r hr
            refine ⟨d, List.mem_map.mpr ⟨(r, d), hd, ?_⟩⟩
            rw [updateEntry, if_neg (by simpa using hr0)]

theorem projLE_trans (x y z : ProjectMatch) :
    projLE x y → projLE y z → projLE x z := by
  simp only [projLE, decide_eq_true_eq]
  intro h₁ h₂
  exact le_trans h₂ h₁

theorem projLE_total (x y : ProjectMatch) : projLE x y || projLE y x := by
  simp only [projLE, Bool.or_eq_true, decide_eq_true_eq]
  exact le_total y.score x.score

theorem skillExample_step1 :
    skillStep "react" [] ⟨some 1, some ⟨some "R", .arr [], none⟩⟩
      = [("R", ⟨1, [], [], 1⟩)] := by
  have hA1 : adjustedScore "react" ⟨some 1, some ⟨some "R", .arr [], none⟩⟩
      = 1 := by
    unfold adjustedScore
    have hh : hasSkill "react"
        (matchTags ⟨some 1, some ⟨some "R", .arr [], none⟩⟩) = false := by
      decide
    rw [hh]
    norm_num
  have hrep : matchRepo ⟨some 1, some ⟨some "R", TechStack.arr [], none⟩⟩
      = some "R" := by decide
  unfold skillStep
  simp only [hrep, hA1]
  rfl

theorem skillExample_step2 :
    skillStep "react" [("R", ⟨1, [], [], 1⟩)]
      ⟨some (1/10), some ⟨some "R", .arr ["react"], none⟩⟩
      = [("R", ⟨1, ["react"], [], 2⟩)] := by
  have hA2 : adjustedScore "react"
      ⟨some (1/10), some ⟨some "R", .arr ["react"], none⟩⟩ = 3 / 20 := by
    unfold adjustedScore
    have hh : hasSkill "react"
        (matchTags ⟨some (1/10), some ⟨some "R", .arr ["react"], none⟩⟩)
        = true := by decide
    rw [hh]
    simp only [Option.getD_some, if_pos]
    norm_num
  have hrep : matchRepo ⟨some (1/10), some ⟨some "R", .arr ["react"], none⟩⟩
      = some "R" := by decide
  have hq : qmax 1 (3 / 20 : ℚ) = 1 := by
    unfold qmax
    rw [if_neg (by norm_num)]
  unfold skillStep
  simp only [hrep]
  rw [show (([("R", (⟨1, [], [], 1⟩ : RepoData))] :
      List (String × RepoData)).find? (fun p => p.1 = "R"))
    = some ("R", ⟨1, [], [], 1⟩) from rfl]
  simp only [List.map_cons, List.map_nil]
  unfold updateEntry
  simp only [hA2, hq]
  rfl

theorem skillExample_eval :
    findProjectsBySkill "react"
      [⟨some 1, some ⟨some "R", .arr [], none⟩⟩,
       ⟨some (1/10), some ⟨some "R", .arr ["react"], none⟩⟩] 20
      = [⟨"R", ["react"], 1, []⟩] := by
  unfold findProjectsBySkill
  rw [List.foldl_cons, List.foldl_cons, List.foldl_nil, skillExample_step1,
    skillExample_step2, List.map_cons, List.map_nil, List.mergeSort_singleton]
  rfl

theorem specSkillScore_example :
    specSkillScore "react"
      [⟨some 1, some ⟨some "R", .arr [], none⟩⟩,
       ⟨some (1/10), some ⟨some "R", .arr ["react"], none⟩⟩] "R" = 3 / 2 := by
  have htags : repoTags
      [⟨some 1, some ⟨some "R", .arr [], none⟩⟩,
       ⟨some (1/10), some ⟨some "R", .arr ["react"], none⟩⟩] "R"
      = ["react"] := rfl
  have hhas : hasSkill "react" ["react"] = true := by decide
  have hfilt : ([⟨some 1, some ⟨some "R", .arr [], none⟩⟩,
        ⟨some (1/10), some ⟨some "R", .arr ["react"], none⟩⟩] :
        List SkillMatch).filter (fun mt => matchRepo mt = some "R")
      = [⟨some 1, some ⟨some "R", .arr [], none⟩⟩,
         ⟨some (1/10), some ⟨some "R", .arr ["react"], none⟩⟩] := rfl
  unfold specSkillScore
  rw [hfilt]
  simp only [htags, hhas, if_pos, List.map_cons, List.map_nil,
    Option.getD_some, List.foldl_cons, List.foldl_nil]
  rw [show (1 : ℚ) * (3 / 2) = 3 / 2 by norm_num,
    show (1 / 10 : ℚ) * (3 / 2) = 3 / 20 by norm_num]
  unfold qmax
  rw [if_pos (by norm_num : (0 : ℚ) ≤ 3 / 2),
    if_neg (by norm_num : ¬ (3 / 2 : ℚ) ≤ 3 / 20)]

/-- C9 counterexample: the 1.5× boost is decided per match from that
match's own tag list, not from the repository's unioned tag set: with
one boosted low-score match and one unboosted high-score match of the
same repository, the code assigns score 1 where the claim's
repository-level boost rule assigns 3/2. -/
theorem skill_boost_counterexample :
    specSkillScore "react"
      [⟨some 1, some ⟨some "R", .arr [], none⟩⟩,
       ⟨some (1/10), some ⟨some "R", .arr ["react"], none⟩⟩] "R" = 3 / 2 ∧
    (findProjectsBySkill "react"
      [⟨some 1, some ⟨some "R", .arr [], none⟩⟩,
       ⟨some (1/10), some ⟨some "R", .arr ["react"], none⟩⟩] 20).map
        (fun p => (p.repo, p.score)) = [("R", 1)] ∧
    ¬ ((3 : ℚ) / 2 = 1) :=
  ⟨specSkillScore_example, by rw [skillExample_eval]; rfl, by norm_num⟩

/-- C9 (amended): the skill search groups the vector matches by
repository, assigns each repository the maximum adjusted match score —
a match's score multiplied by 1.5 exactly when that match's own tag
list has a case-insensitive substring overlap with the skill (in either
direction), by 1.0 otherwise — unions each repository's tag sets, and
returns the repositories sorted descending by that score, truncated to
at most `limit` entries. -/
theorem skill_search_spec (skill : String) (ms : List SkillMatch)
    (limit : ℕ) :
    (findProjectsBySkill skill ms limit).length ≤ limit ∧
    (findProjectsBySkill skill ms limit).Pairwise
      (fun x y => y.score ≤ x.score) ∧
    (∀ p ∈ findProjectsBySkill skill ms limit,
      p.score ∈ repoScores skill ms p.repo ∧
      (∀ s ∈ repoScores skill ms p.repo, s ≤ p.score) ∧
      (∀ t, t ∈ p.techStack ↔ t ∈ repoTags ms p.repo)) ∧
    (∀ r, repoScores skill ms r ≠ [] →
      ∃ d, (r, d) ∈ ms.foldl (skillStep skill) []) := by
  obtain ⟨hsound, hcompl⟩ := foldl_skillStep_inv skill ms
  refine ⟨?_, ?_, ?_, hcompl⟩
  · exact List.length_take_le _ _
  · have hs := List.sorted_mergeSort projLE_trans projLE_total
      ((ms.foldl (skillStep skill) []).map
        (fun p => (⟨p.1, p.2.techStack, p.2.score, p.2.paths.take 5⟩ :
          ProjectMatch)))
    have := hs.sublist (List.take_sublist limit _)
    exact this.imp (fun h => by simpa [projLE] using h)
  · intro p hp
    unfold findProjectsBySkill at hp
    have hp' := List.mem_of_mem_take hp
    rw [List.mem_mergeSort] at hp'
    obtain ⟨q, hq, hqe⟩ := List.mem_map.mp hp'
    have hps : p.score = q.2.score := by rw [← hqe]
    have hpr : p.repo = q.1 := by rw [← hqe]
    have hpt : p.techStack = q.2.techStack := by rw [← hqe]
    rw [hps, hpr, hpt]
    exact hsound q.1 q.2 hq

/-- Witness for the amended C9 at concrete inputs. -/
theorem skill_search_spec_witness :
    (⟨"R", ["react"], 1, []⟩ : ProjectMatch) ∈ findProjectsBySkill "react"
      [⟨some 1, some ⟨some "R", .arr [], none⟩⟩,
       ⟨some (1/10), some ⟨some "R", .arr ["react"], none⟩⟩] 20 ∧
    ((1 : ℚ) ∈ repoScores "react"
        [⟨some 1, some ⟨some "R", .arr [], none⟩⟩,
         ⟨some (1/10), some ⟨some "R", .arr ["react"], none⟩⟩] "R" ∧
      (∀ s ∈ repoScores "react"
          [⟨some 1, some ⟨some "R", .arr [], none⟩⟩,
           ⟨some (1/10), some ⟨some "R", .arr ["react"], none⟩⟩] "R",
        s ≤ 1) ∧
      (∀ t, t ∈ (["react"] : List String) ↔ t ∈ repoTags
        [⟨some 1, some ⟨some "R", .arr [], none⟩⟩,
         ⟨some (1/10), some ⟨some "R", .arr ["react"], none⟩⟩] "R")) := by
  have hmem : (⟨"R", ["react"], 1, []⟩ : ProjectMatch) ∈ findProjectsBySkill
      "react" [⟨some 1, some ⟨some "R", .arr [], none⟩⟩,
        ⟨some (1/10), some ⟨some "R", .arr ["react"], none⟩⟩] 20 := by
    rw [skillExample_eval]
    exact List.mem_singleton_self _
  exact ⟨hmem,
    (skill_search_spec "react"
      [⟨some 1, some ⟨some "R", .arr [], none⟩⟩,
       ⟨some (1/10), some ⟨some "R", .arr ["react"], none⟩⟩] 20).2.2.1
      ⟨"R", ["react"], 1, []⟩ hmem⟩

end GhRag
